import Mathlib

/-!
Verification of the shakmaty-syzygy table decoder against its specification.

The Rust sources embedded here are `src/lib.rs` (tables, decompression,
probing), `src/errors.rs` (error taxonomy) and `src/types.rs` (WDL values).
The module `material.rs` is declared by `lib.rs` (`mod material;`) but is not
part of the source tree, so the material-key operations are modelled from the
specification (each such definition is marked `Modelled from the spec:`).

Machine integers are modelled as `Nat`/`Int`; wrap-around and checked
arithmetic are made explicit where the source relies on them.  Rust panics
(`panic!`, `assert!`, `unreachable!`, indexing out of bounds, `expect`) are
modelled as `none` of an outer `Option` layer; `Err(...)` returns are the
`Except.error` values inside it.
-/

namespace Syzygy

/-! ## Chess primitive types (from `shakmaty`, as consumed by `lib.rs`) -/

/-- Piece roles, as decoded by `byte_to_piece` in `lib.rs`. -/
inductive Role
  | pawn | knight | bishop | rook | queen | king
deriving DecidableEq, Repr

/-- A piece: colour (`white : Bool`) plus role. -/
structure Piece where
  white : Bool
  role : Role
deriving DecidableEq, Repr

/-- List of all roles, used for finite quantification over piece kinds. -/
def Role.all : List Role := [.pawn, .knight, .bishop, .rook, .queen, .king]

/-! ## Material key

`lib.rs` declares `mod material;` but `material.rs` is absent from the source
tree; only its interface (`Material::from_iter`, `has_pawns`, `is_symmetric`,
`unique_pieces`, `min_like_man`, `count`, normalization) is visible from the
call sites and the spec (§4.1).  We model a material key as the list of
pieces it was built from, with all queries defined by counting, which realises
the multiset semantics the spec gives. -/

/-- Modelled from the spec: a material key is a multiset of pieces
(represented by the underlying piece list; all operations are count-based,
hence representation-independent up to permutation). -/
def Material := List Piece

instance : DecidableEq Material := by
  unfold Material; infer_instance

/-- Modelled from the spec: number of pieces of a given kind in the key. -/
def matCount1 (m : Material) (p : Piece) : ℕ := m.count p

/-- Modelled from the spec: total number of pieces (`Material::count`). -/
def matCount (m : Material) : ℕ := m.length

/-- Modelled from the spec: whether one side has pawns. -/
def sideHasPawns (m : Material) (white : Bool) : Bool :=
  m.any fun p => p.white == white && p.role == Role.pawn

/-- Modelled from the spec: whether the key contains any pawn. -/
def matHasPawns (m : Material) : Bool :=
  m.any fun p => p.role == Role.pawn

/-- Modelled from the spec: count of piece kinds (colour + role) that appear
exactly once across both sides (`Material::unique_pieces`). -/
def matUnique (m : Material) : ℕ :=
  (m.filter fun p => m.count p == 1).length

/-- Modelled from the spec: smallest count among piece kinds appearing at
least twice (`Material::min_like_man`); 0 when there is none. -/
def matMinLikeMan (m : Material) : ℕ :=
  match (m.filter fun p => 2 ≤ m.count p).map (fun p => m.count p) with
  | [] => 0
  | c :: cs => cs.foldl Nat.min c

/-- Modelled from the spec: same material on both sides
(`Material::is_symmetric`). -/
def matIsSymmetric (m : Material) : Bool :=
  Role.all.all fun r => m.count ⟨true, r⟩ == m.count ⟨false, r⟩

/-- Modelled from the spec: multiset equality of two material keys. -/
def matEq (m1 m2 : Material) : Bool :=
  Role.all.all fun r =>
    m1.count ⟨true, r⟩ == m2.count ⟨true, r⟩ &&
    m1.count ⟨false, r⟩ == m2.count ⟨false, r⟩

/-! ## WDL values (`src/types.rs` lines 46-85 and `lib.rs` lines 408-416) -/

/-- The five-valued win/draw/loss outcome. -/
inductive Wdl
  | loss | blessedLoss | draw | cursedWin | win
deriving DecidableEq, Repr

/-- The `#[repr(i8)]` discriminants of `Wdl` (`Loss = -2`, ..., `Win = 2`),
i.e. the `From<Wdl> for i8` conversion in `types.rs`. -/
def Wdl.toInt : Wdl → ℤ
  | .loss => -2
  | .blessedLoss => -1
  | .draw => 0
  | .cursedWin => 1
  | .win => 2

/-- The `Neg` implementation for `Wdl` in `types.rs`. -/
def Wdl.neg : Wdl → Wdl
  | .loss => .win
  | .blessedLoss => .cursedWin
  | .draw => .draw
  | .cursedWin => .blessedLoss
  | .win => .loss

/-! ## Error type

`lib.rs` defines `SyzygyError { kind: ErrorKind }` (lines 79-87) with the
single kind `CorruptedTable`: it is the only error any function in `lib.rs`
can return.  (The later-generation `errors.rs` in the tree declares a richer
taxonomy - `Castling`, `TooManyPieces`, `MissingTable`, `ProbeFailed` - but
no code under `src/` constructs any of those variants.) -/

/-- `ErrorKind` from `lib.rs` (lines 84-87): the only error kind the table
reader itself can return. -/
inductive ErrorKind
  | corruptedTable
deriving DecidableEq, Repr

/-- `MAX_PIECES` from `lib.rs` line 65. -/
def MAX_PIECES : ℕ := 6

/-! ## Result type of the table reader

The reader functions return `Result<_, SyzygyError>` but can also panic
(`assert!`, `panic!("TODO ...")`, slice indexing).  `PRes α` layers the two:
`none` is a panic, `some (.error _)` an `Err`, `some (.ok _)` an `Ok`. -/

/-- Result of a `lib.rs` table-reader function: panic, error, or value. -/
abbrev PRes (α : Type) := ExceptT ErrorKind Option α

/-- A Rust panic (`assert!` failure, `panic!`, `unreachable!`, out-of-bounds
indexing, arithmetic overflow in debug builds). -/
def rustPanic {α : Type} : PRes α := ExceptT.mk none

/-- An `Err(SyzygyError { kind: CorruptedTable })` return. -/
def corruptedE {α : Type} : PRes α :=
  ExceptT.mk (some (Except.error ErrorKind.corruptedTable))

/-- The `?` operator on an `Option`, using `From<NoneError> for SyzygyError`
(`lib.rs` lines 109-113): `None` becomes a `CorruptedTable` error. -/
def ofOpt {α : Type} : Option α → PRes α
  | some a => ExceptT.mk (some (Except.ok a))
  | none => corruptedE

/-- Lift a plain `Result` into `PRes`. -/
def ofExcept {α : Type} (e : Except ErrorKind α) : PRes α := ExceptT.mk (some e)

/-! ## C3: decompressed byte to WDL (`lib.rs` lines 646-653)

`probe_wdl_table` ends with
`Ok(match self.decompress_pairs(side, idx) { 0 => Loss, ..., 4 => Win,
 _ => unreachable!("invalid decompressed wdl") })`.
The wildcard arm panics; it does not produce a `CorruptedTable` error. -/

/-- The byte-to-WDL match at the end of `Table::probe_wdl_table`:
bytes 0..=4 map to the five WDL values and are returned as `Ok`; any other
byte hits `unreachable!("invalid decompressed wdl")`, i.e. a panic. -/
def wdlFromByte (b : ℕ) : PRes Wdl :=
  match b with
  | 0 => ofExcept (Except.ok Wdl.loss)
  | 1 => ofExcept (Except.ok Wdl.blessedLoss)
  | 2 => ofExcept (Except.ok Wdl.draw)
  | 3 => ofExcept (Except.ok Wdl.cursedWin)
  | 4 => ofExcept (Except.ok Wdl.win)
  | _ => rustPanic

/-! ## Squares and the canonicalization folds (`lib.rs` lines 579-605)

A square is an index in `[0, 64)` with `file = sq % 8`, `rank = sq / 8`
(`sq = rank*8 + file`), exactly the `shakmaty` square representation used by
the source. -/

/-- File (column) of a square. -/
def file (sq : Fin 64) : ℕ := sq.val % 8

/-- Rank (row) of a square. -/
def rank (sq : Fin 64) : ℕ := sq.val / 8

/-- `Square::mirror_horizontal`: file becomes `7 - file`. -/
def mirrorHorizontal (sq : Fin 64) : Fin 64 :=
  ⟨8 * (sq.val / 8) + (7 - sq.val % 8), by have := sq.isLt; omega⟩

/-- `Square::mirror_vertical`: rank becomes `7 - rank`. -/
def mirrorVertical (sq : Fin 64) : Fin 64 :=
  ⟨8 * (7 - sq.val / 8) + sq.val % 8, by have := sq.isLt; omega⟩

/-- `Square::mirror_diagonal`: file and rank swap. -/
def mirrorDiagonal (sq : Fin 64) : Fin 64 :=
  ⟨8 * (sq.val % 8) + sq.val / 8, by have := sq.isLt; omega⟩

/-- Horizontal fold (`lib.rs` lines 579-583): when the leading square has
file ≥ 4 every square is mirrored horizontally.  The source indexes
`squares[0]` and the probe guarantees a non-empty square list; the empty case
is vacuous here. -/
def hFold : List (Fin 64) → List (Fin 64)
  | [] => []
  | s :: rest =>
    if 4 ≤ file s then (s :: rest).map mirrorHorizontal else s :: rest

/-- Vertical fold (`lib.rs` lines 587-591, pawnless): when the leading square
has rank ≥ 4 every square is mirrored vertically. -/
def vFold : List (Fin 64) → List (Fin 64)
  | [] => []
  | s :: rest =>
    if 4 ≤ rank s then (s :: rest).map mirrorVertical else s :: rest

/-- Diagonal fold (`lib.rs` lines 593-605): walk the first `n = lens[0]`
squares; skip squares on the a1-h8 diagonal; at the first off-diagonal square,
mirror it and everything after it diagonally when its rank exceeds its file,
then stop. -/
def dFoldGo : ℕ → List (Fin 64) → List (Fin 64)
  | _, [] => []
  | 0, xs => xs
  | n + 1, s :: rest =>
    if file s = rank s then s :: dFoldGo n rest
    else if file s < rank s then (s :: rest).map mirrorDiagonal
    else s :: rest

/-! ## C7: square-list construction (`lib.rs` lines 569-577)

The board is modelled as a map from squares to optional pieces;
`Board::by_piece(piece)` is the ascending list of squares holding that piece,
and `Bitboard::first()` is its head. -/

/-- `pos.board().by_piece(p)`: the squares holding piece `p`, in ascending
square order (the iteration order of a `shakmaty` bitboard). -/
def byPiece (board : Fin 64 → Option Piece) (p : Piece) : List (Fin 64) :=
  (List.finRange 64).filter fun sq => board sq == some p

/-- The colour-flip condition of `probe_wdl_table` (`lib.rs` lines 561-562):
`symmetric_btm || black_stronger`, where `symmetric_btm` is
`self.key.is_symmetric() && pos.turn().is_black()` and `black_stronger` is
`key != self.key`. -/
def probeFlip (tableKey posKey : Material) (turnWhite : Bool) : Bool :=
  (matIsSymmetric tableKey && !turnWhite) || !(matEq posKey tableKey)

/-- The square-list construction loop of `probe_wdl_table`: for each piece of
`side.groups.pieces` in order, flip its colour iff `flip`, take the first
square of that piece not yet used, and record it.  The source unwraps the
square with `.expect("piece exists")`, so a missing square is a panic
(`none`), not an error return. -/
def buildSquares (board : Fin 64 → Option Piece) (flip : Bool) :
    List Piece → List (Fin 64) → Option (List (Fin 64))
  | [], _ => some []
  | p :: ps, used =>
    match ((byPiece board ⟨xor p.white flip, p.role⟩).filter
        fun sq => !used.contains sq).head? with
    | none => none
    | some sq => (buildSquares board flip ps (sq :: used)).map (sq :: ·)

/-- Error type for the claim's reading of the square-list construction. -/
inductive SquaresError
  | probeFailed
deriving DecidableEq, Repr

/-- The claim's description of locating one piece: the least square of the board
holding the (possibly colour-flipped) piece, excluding already-taken
squares. -/
def locateSpec (board : Fin 64 → Option Piece) (p : Piece)
    (used : List (Fin 64)) : Option (Fin 64) :=
  ((List.finRange 64).filter
    fun sq => board sq == some p && !used.contains sq).min?

/-- The square-list construction as the claim states it: squares in the
exact order of the piece list, colours flipped iff `flip`, earlier slots
excluded, and a `ProbeFailed` error when a piece's square cannot be
located. -/
def buildSquaresSpec (board : Fin 64 → Option Piece) (flip : Bool) :
    List Piece → List (Fin 64) → Except SquaresError (List (Fin 64))
  | [], _ => Except.ok []
  | p :: ps, used =>
    match locateSpec board ⟨xor p.white flip, p.role⟩ used with
    | none => Except.error SquaresError.probeFailed
    | some sq => (buildSquaresSpec board flip ps (sq :: used)).map (sq :: ·)

/-! ## Byte-level readers -/

/-- Little-endian u16 read of `data.get(p..p + 2)?`. -/
def readU16 (data : List ℕ) (p : ℕ) : Option ℕ :=
  match data.get? p, data.get? (p + 1) with
  | some b0, some b1 => some (b0 + 256 * b1)
  | _, _ => none

/-- Little-endian u32 read of `data.get(p..p + 4)?`. -/
def readU32 (data : List ℕ) (p : ℕ) : Option ℕ :=
  match data.get? p, data.get? (p + 1), data.get? (p + 2),
      data.get? (p + 3) with
  | some b0, some b1, some b2, some b3 =>
    some (b0 + 256 * b1 + 65536 * b2 + 16777216 * b3)
  | _, _, _, _ => none

/-- `data.get(i..)`: the suffix starting at `i`, or `None` when `i` exceeds
the length. -/
def sliceFrom (data : List ℕ) (i : ℕ) : Option (List ℕ) :=
  if i ≤ data.length then some (data.drop i) else none

/-- Successful return of a table-reader function (`Ok` without panic). -/
def pureRes {α : Type} (a : α) : PRes α := ExceptT.mk (some (Except.ok a))

/-! ## Piece-list parsing (`lib.rs` lines 136-161) -/

/-- `byte_to_piece`: bit 3 of the code is the colour (0 = white), the code
with bit 3 cleared is the role (1 = pawn ... 6 = king); anything else is
`None`. -/
def byteToPiece (p : ℕ) : Option Piece :=
  let white := p / 8 % 2 == 0
  match p - 8 * (p / 8 % 2) with
  | 1 => some ⟨white, Role.pawn⟩
  | 2 => some ⟨white, Role.knight⟩
  | 3 => some ⟨white, Role.bishop⟩
  | 4 => some ⟨white, Role.rook⟩
  | 5 => some ⟨white, Role.queen⟩
  | 6 => some ⟨white, Role.king⟩
  | _ => none

/-- Decode the per-byte nibbles of a piece list (the loop body of
`parse_pieces`); a bad role code is a `CorruptedTable` error via `?`. -/
def parsePiecesGo (sideWhite : Bool) : List ℕ → Except ErrorKind (List Piece)
  | [] => Except.ok []
  | b :: bs =>
    match byteToPiece (if sideWhite then b / 16 else b % 16) with
    | none => Except.error ErrorKind.corruptedTable
    | some p => (parsePiecesGo sideWhite bs).map (p :: ·)

/-- `parse_pieces`: read at most `MAX_PIECES` bytes, stop at a zero byte,
decode the side's nibble of each (white reads the high nibble, black the
low one). -/
def parsePieces (bytes : List ℕ) (sideWhite : Bool) :
    Except ErrorKind (List Piece) :=
  parsePiecesGo sideWhite ((bytes.take MAX_PIECES).takeWhile (· != 0))

/-! ## Piece grouping (`lib.rs` lines 163-188) -/

/-- Run lengths of maximal runs of identical adjacent pieces (what the
`group_by` iterator of `group_pieces` produces). -/
def runLengthsGo (cur : Piece) (n : ℕ) : List Piece → List ℕ
  | [] => [n]
  | q :: qs =>
    if q = cur then runLengthsGo cur (n + 1) qs
    else n :: runLengthsGo q 1 qs

/-- Lengths of maximal runs of identical adjacent pieces. -/
def runLengths : List Piece → List ℕ
  | [] => []
  | p :: ps => runLengthsGo p 1 ps

/-- `group_pieces`: pawnless lists lead with 3 unique pieces (when there are
at least 3) or the two kings; the remaining identical pieces group by runs. -/
def groupPieces (pieces : List Piece) : List ℕ :=
  let firstLen :=
    if matHasPawns pieces then 0
    else if 3 ≤ matUnique pieces then 3 else 2
  (if 0 < firstLen then [firstLen] else []) ++
    runLengths (pieces.drop firstLen)

/-! ## Group factors (`lib.rs` lines 198-258, C4) -/

/-- State of the factor-computation loop of `GroupData::parse`. -/
structure FactorState where
  factors : List ℕ
  freeSquares : ℕ
  next : ℕ
  idx : ℕ
  k : ℕ
deriving DecidableEq, Repr

/-- Termination measure of the factor loop: every iteration either advances
`next` toward `lens.length` or moves `k` past one of the two order marks. -/
def factorMeasure (lens : List ℕ) (o0 o1 : ℕ) (st : FactorState) : ℕ :=
  (lens.length - st.next) + (if st.k ≤ o0 then o0 + 1 - st.k else 0) +
    (if st.k ≤ o1 then o1 + 1 - st.k else 0)

/-- The factor-computation loop of `GroupData::parse` (`lib.rs` lines
225-253).  `none` models the `panic!("TODO: Compute LEAD_PAWNS_SIZE")` and
`panic!("TODO: Compute MULT_FACTOR")` arms.  Factor values stay far below
2^64 for any table the format admits, so `u64` products are plain naturals
here. -/
def factorLoop (ck hasPawns : Bool) (unique minLike : ℕ) (lens : List ℕ)
    (o0 o1 : ℕ) (st : FactorState) : Option FactorState :=
  if _h : st.next < lens.length ∨ st.k = o0 ∨ st.k = o1 then
    if _h0 : st.k = o0 then
      if hasPawns then none
      else if 3 ≤ unique then
        factorLoop ck hasPawns unique minLike lens o0 o1
          { st with
            factors := st.factors.set 0 st.idx
            idx := st.idx * 31332
            k := st.k + 1 }
      else if unique = 2 then
        factorLoop ck hasPawns unique minLike lens o0 o1
          { st with
            factors := st.factors.set 0 st.idx
            idx := st.idx * (if ck then 518 else 462)
            k := st.k + 1 }
      else if minLike = 2 then
        factorLoop ck hasPawns unique minLike lens o0 o1
          { st with
            factors := st.factors.set 0 st.idx
            idx := st.idx * 278
            k := st.k + 1 }
      else none
    else if _h1 : st.k = o1 then
      factorLoop ck hasPawns unique minLike lens o0 o1
        { st with
          factors := st.factors.set 1 st.idx
          idx := st.idx * Nat.choose (48 - lens.headI) (lens.getD 1 0)
          k := st.k + 1 }
    else
      factorLoop ck hasPawns unique minLike lens o0 o1
        { st with
          factors := st.factors.set st.next st.idx
          idx := st.idx * Nat.choose st.freeSquares (lens.getD st.next 0)
          freeSquares := st.freeSquares - lens.getD st.next 0
          next := st.next + 1
          k := st.k + 1 }
  else some st
termination_by factorMeasure lens o0 o1 st
decreasing_by
  all_goals
    dsimp only [factorMeasure]
    split_ifs <;> omega

/-- `GroupData` (`lib.rs` lines 191-196). -/
structure GroupData where
  pieces : List Piece
  lens : List ℕ
  factors : List ℕ
deriving DecidableEq, Repr

/-- Initial state of the factor loop (`lib.rs` lines 217-223): zeroed
factors of length `lens.len() + 1`, `free_squares = 64 - lens[0] -
(pp ? lens[1] : 0)`, `next = pp ? 2 : 1`, `idx = 1`, `k = 0`, where `pp`
holds when both sides have pawns. -/
def factorInit (pieces : List Piece) : FactorState :=
  { factors := List.replicate ((groupPieces pieces).length + 1) 0
    freeSquares := 64 - (groupPieces pieces).headI -
      (if sideHasPawns pieces true && sideHasPawns pieces false
        then (groupPieces pieces).getD 1 0 else 0)
    next :=
      if sideHasPawns pieces true && sideHasPawns pieces false then 2 else 1
    idx := 1
    k := 0 }

/-- `GroupData::parse` (`lib.rs` lines 198-258): parse the side's piece
list, require at least two pieces, read the order nibbles (swapped for the
black side), then run the factor loop and store the final index in
`factors[lens.len()]`. -/
def GroupData.parse (ck : Bool) (data : List ℕ) (ptr : ℕ)
    (sideWhite : Bool) : PRes GroupData :=
  match sliceFrom data (ptr + 1) with
  | none => corruptedE
  | some tail =>
    match parsePieces tail sideWhite with
    | Except.error _ => corruptedE
    | Except.ok pieces =>
      if pieces.length < 2 then corruptedE
      else
        match data.get? ptr with
        | none => corruptedE
        | some ob =>
          match factorLoop ck (matHasPawns pieces) (matUnique pieces)
              (matMinLikeMan pieces) (groupPieces pieces)
              (if sideWhite then ob / 16 else ob % 16)
              (if sideWhite then ob % 16 else ob / 16)
              (factorInit pieces) with
          | none => rustPanic
          | some stF =>
            pureRes { pieces := pieces
                      lens := groupPieces pieces
                      factors :=
                        stF.factors.set (groupPieces pieces).length stF.idx }

/-! ## Huffman base array (`lib.rs` lines 340-355, C5) -/

/-- `u64::checked_add`. -/
def checkedAdd64 (a b : ℕ) : Option ℕ :=
  if a + b < 2 ^ 64 then some (a + b) else none

/-- `u64::checked_sub`. -/
def checkedSub (a b : ℕ) : Option ℕ :=
  if b ≤ a then some (a - b) else none

/-- One step of the base-array loop (`lib.rs` lines 341-351) for row `i`,
given `base[i+1] = prev`: read the two little-endian `lowest_sym` entries,
form `(prev + ls[i] - ls[i+1]) / 2` through `checked_add`/`checked_sub`
(`?` turns a failed read or check into `CorruptedTable`), and reject
`base[i] * 2 < base[i+1]`. -/
def baseStep (data : List ℕ) (lowestSym i prev : ℕ) : Except ErrorKind ℕ :=
  match readU16 data (lowestSym + 2 * i) with
  | none => Except.error ErrorKind.corruptedTable
  | some a =>
    match readU16 data (lowestSym + 2 * i + 2) with
    | none => Except.error ErrorKind.corruptedTable
    | some b =>
      match checkedAdd64 prev a with
      | none => Except.error ErrorKind.corruptedTable
      | some sum =>
        match checkedSub sum b with
        | none => Except.error ErrorKind.corruptedTable
        | some d =>
          if d / 2 * 2 < prev then Except.error ErrorKind.corruptedTable
          else Except.ok (d / 2)

/-- The rows `base[i], ..., base[h-1]` of the unshifted base array, built
bottom-up (`base[h-1] = 0`) exactly as the source's loop over
`(0..=h-2).rev()` does. -/
def baseRows (data : List ℕ) (lowestSym h i : ℕ) :
    Except ErrorKind (List ℕ) :=
  if _hi : h ≤ i + 1 then Except.ok (if i < h then [0] else [])
  else
    match baseRows data lowestSym h (i + 1) with
    | Except.error e => Except.error e
    | Except.ok rest =>
      match baseStep data lowestSym i rest.headI with
      | Except.error e => Except.error e
      | Except.ok v => Except.ok (v :: rest)
termination_by h - i
decreasing_by omega

/-- The left-shift pass (`lib.rs` lines 353-355): `base[i] <<= 64 -
(min_symlen + i)` in u64.  The `u8` subtraction underflows (a panic) when
`min_symlen + i > 64`, and a shift by 64 (`min_symlen + i = 0`) also
panics. -/
def shiftBase (minSymlen : ℕ) : ℕ → List ℕ → Option (List ℕ)
  | _, [] => some []
  | i, b :: rest =>
    if minSymlen + i = 0 ∨ 64 < minSymlen + i then none
    else
      match shiftBase minSymlen (i + 1) rest with
      | none => none
      | some rest2 =>
        some (b * 2 ^ (64 - (minSymlen + i)) % 2 ^ 64 :: rest2)

/-- Base-array construction of `PairsData::new`: for `h ≤ 1` the source's
`h - 2` underflows (a panic); otherwise build the rows bottom-up, then
left-shift each row. -/
def buildBase (data : List ℕ) (lowestSym h minSymlen : ℕ) :
    PRes (List ℕ) :=
  if h < 2 then rustPanic
  else
    match baseRows data lowestSym h 0 with
    | Except.error e => ExceptT.mk (some (Except.error e))
    | Except.ok rows =>
      match shiftBase minSymlen 0 rows with
      | none => rustPanic
      | some b => pureRes b

/-- The base recurrence exactly as the claim words it: walking `i` from
`h-2` down to 0, `base[i] = (base[i+1] + lowest_sym[i] - lowest_sym[i+1])
/ 2`, failing with `CorruptedTable` whenever `2·base[i] < base[i+1]` or the
intermediate sum under/overflows u64. -/
def baseRowsSpec (data : List ℕ) (lowestSym h i : ℕ) :
    Except ErrorKind (List ℕ) :=
  if _hi : h ≤ i + 1 then Except.ok (if i < h then [0] else [])
  else
    match baseRowsSpec data lowestSym h (i + 1) with
    | Except.error e => Except.error e
    | Except.ok rest =>
      match readU16 data (lowestSym + 2 * i),
          readU16 data (lowestSym + 2 * i + 2) with
      | some lsi, some lsi1 =>
        if 2 ^ 64 ≤ rest.headI + lsi ∨ rest.headI + lsi < lsi1 then
          Except.error ErrorKind.corruptedTable
        else if 2 * ((rest.headI + lsi - lsi1) / 2) < rest.headI then
          Except.error ErrorKind.corruptedTable
        else Except.ok ((rest.headI + lsi - lsi1) / 2 :: rest)
      | _, _ => Except.error ErrorKind.corruptedTable
termination_by h - i
decreasing_by omega

/-- The claim's account of the whole construction: the recurrence rows
followed by a left shift of `base[i]` by `64 - (min_symlen + i)` bits. -/
def buildBaseSpec (data : List ℕ) (lowestSym h minSymlen : ℕ) :
    PRes (List ℕ) :=
  if h < 2 then rustPanic
  else
    match baseRowsSpec data lowestSym h 0 with
    | Except.error e => ExceptT.mk (some (Except.error e))
    | Except.ok rows =>
      pureRes (rows.mapIdx fun i b =>
        b * 2 ^ (64 - (minSymlen + i)) % 2 ^ 64)

/-! ## Symbol lengths (`lib.rs` lines 300-317, C6) -/

/-- Low 12 bits of the 3-byte btree node of symbol `s`: the left child
(`sl` in `calc_symlen`). -/
def nodeLeft (data : List ℕ) (btree s : ℕ) : ℕ :=
  data.getD (btree + 3 * s + 1) 0 % 16 * 256 + data.getD (btree + 3 * s) 0

/-- High 12 bits of the 3-byte btree node of symbol `s`: the right child
(`sr` in `calc_symlen`); 0xFFF marks a terminal symbol. -/
def nodeRight (data : List ℕ) (btree s : ℕ) : ℕ :=
  data.getD (btree + 3 * s + 2) 0 * 16 + data.getD (btree + 3 * s + 1) 0 / 16

/-- State of `calc_symlen`: one `(symlen, visited)` pair per symbol. -/
abbrev SymState := List (ℕ × Bool)

/-- The `symlen` entry of symbol `s`. -/
def symVal (st : SymState) (s : ℕ) : ℕ := (st.getD s (0, false)).1

/-- The `visited` bit of symbol `s`. -/
def symVisited (st : SymState) (s : ℕ) : Bool := (st.getD s (0, false)).2

/-- `calc_symlen` (`lib.rs` lines 300-317), fuelled.  Out-of-bounds reads of
`data`, `symlen` or `visited` are panics (`none`), as is the `u8` overflow
of `symlen[sl] + symlen[sr] + 1`; fuel exhaustion models the source's
divergence on a cyclic tree (each recursive call targets a still-unvisited
symbol, so a terminating source run never exceeds depth `count + 1`). -/
def calcSymlen (data : List ℕ) (btree : ℕ) :
    ℕ → ℕ → SymState → Option SymState
  | 0, _, _ => none
  | fuel + 1, s, st =>
    match data.get? (btree + 3 * s + 2) with
    | none => none
    | some b2 =>
      match data.get? (btree + 3 * s + 1) with
      | none => none
      | some b1 =>
        if b2 * 16 + b1 / 16 = 4095 then
          match st.get? s with
          | none => none
          | some _ => some (st.set s (0, true))
        else
          match data.get? (btree + 3 * s) with
          | none => none
          | some b0 =>
            match st.get? (b1 % 16 * 256 + b0) with
            | none => none
            | some pl =>
              match (if pl.2 then some st
                  else calcSymlen data btree fuel (b1 % 16 * 256 + b0) st) with
              | none => none
              | some st1 =>
                match st1.get? (b2 * 16 + b1 / 16) with
                | none => none
                | some pr =>
                  match (if pr.2 then some st1
                      else calcSymlen data btree fuel (b2 * 16 + b1 / 16)
                        st1) with
                  | none => none
                  | some st2 =>
                    match st2.get? (b1 % 16 * 256 + b0) with
                    | none => none
                    | some ql =>
                      match st2.get? (b2 * 16 + b1 / 16) with
                      | none => none
                      | some qr =>
                        match st2.get? s with
                        | none => none
                        | some _ =>
                          if 255 < ql.1 + qr.1 + 1 then none
                          else some (st2.set s (ql.1 + qr.1 + 1, true))

/-- One turn of the symlen construction loop (`lib.rs` lines 363-367):
skip a visited symbol, otherwise run `calc_symlen` on it. -/
def symlenVisit (data : List ℕ) (btree count : ℕ) (st : SymState)
    (s : ℕ) : Option SymState :=
  if symVisited st s then some st
  else calcSymlen data btree (count + 1) s st

/-- The whole symlen construction of `PairsData::new` (`lib.rs` lines
358-367): a zeroed, unvisited state of `count` symbols, then the loop over
`s` in `0..count`. -/
def symlenTable (data : List ℕ) (btree count : ℕ) : Option SymState :=
  (List.range count).foldlM (symlenVisit data btree count)
    (List.replicate count (0, false))

/-- The claim's per-symbol characterization of the finished `symlen`
table. -/
def symOk (data : List ℕ) (btree : ℕ) (st : SymState) (s : ℕ) : Prop :=
  if nodeRight data btree s = 4095 then symVal st s = 0
  else symVisited st (nodeLeft data btree s) = true ∧
    symVisited st (nodeRight data btree s) = true ∧
    symVal st s = symVal st (nodeLeft data btree s) +
      symVal st (nodeRight data btree s) + 1

/-! ## Symbol expansion descent (`lib.rs` lines 543-555, C1) -/

/-- The final symbol-expansion loop of `Table::decompress_pairs`, exactly as
written: while `symlen[sym] ≠ 0`, the local the source names `left` is read
from the HIGH 12 bits of the node (`(data[w+2] << 4) | (data[w+1] >> 4)`);
the decoder descends into it when `offset < symlen[left] + 1` and otherwise
into the LOW 12 bits; a zero `symlen` returns the byte at `btree + 3*sym`.
Fuelled: the loop terminates only by virtue of `symlen` well-formedness. -/
def symExpand (data : List ℕ) (btree : ℕ) (symlen : List ℕ) :
    ℕ → ℤ → ℕ → Option ℕ
  | 0, _, _ => none
  | fuel + 1, offset, sym =>
    match symlen.get? sym with
    | none => none
    | some sl =>
      if sl ≠ 0 then
        match data.get? (btree + 3 * sym + 2) with
        | none => none
        | some b2 =>
          match data.get? (btree + 3 * sym + 1) with
          | none => none
          | some b1 =>
            match symlen.get? (b2 * 16 + b1 / 16) with
            | none => none
            | some lenHi =>
              if offset < (lenHi : ℤ) + 1 then
                symExpand data btree symlen fuel offset (b2 * 16 + b1 / 16)
              else
                match data.get? (btree + 3 * sym) with
                | none => none
                | some b0 =>
                  symExpand data btree symlen fuel (offset - ((lenHi : ℤ) + 1))
                    (b1 % 16 * 256 + b0)
      else data.get? (btree + 3 * sym)

/-- The symbol-expansion descent as the claim (and `calc_symlen`'s own
left/right convention, and the upstream Syzygy format) states it: `left` is
the LOW 12 bits, `right` the HIGH 12 bits; descend left when
`offset < symlen[left] + 1`, else subtract and descend right. -/
def symExpandSpec (data : List ℕ) (btree : ℕ) (symlen : List ℕ) :
    ℕ → ℤ → ℕ → Option ℕ
  | 0, _, _ => none
  | fuel + 1, offset, sym =>
    match symlen.get? sym with
    | none => none
    | some sl =>
      if sl ≠ 0 then
        match data.get? (btree + 3 * sym + 2) with
        | none => none
        | some b2 =>
          match data.get? (btree + 3 * sym + 1) with
          | none => none
          | some b1 =>
            match data.get? (btree + 3 * sym) with
            | none => none
            | some b0 =>
              match symlen.get? (b1 % 16 * 256 + b0) with
              | none => none
              | some lenLo =>
                if offset < (lenLo : ℤ) + 1 then
                  symExpandSpec data btree symlen fuel offset
                    (b1 % 16 * 256 + b0)
                else
                  symExpandSpec data btree symlen fuel
                    (offset - ((lenLo : ℤ) + 1)) (b2 * 16 + b1 / 16)
      else data.get? (btree + 3 * sym)

/-! ## Pairs data and table construction (`lib.rs` lines 261-482, C8) -/

/-- `PairsData` (`lib.rs` lines 261-298); the `data` offset field is named
`dataOfs`. -/
structure PairsDataT where
  flags : ℕ
  groups : GroupData
  blockSize : ℕ
  span : ℕ
  blocksNum : ℕ
  btree : ℕ
  minSymlen : ℕ
  lowestSym : ℕ
  base : List ℕ
  symlen : List ℕ
  sparseIndex : ℕ
  sparseIndexSize : ℕ
  blockLengths : ℕ
  blockLengthSize : ℕ
  dataOfs : ℕ
deriving DecidableEq, Repr

/-- `PairsData::new` (`lib.rs` lines 320-389): header bytes, base array,
symbol count and symlen construction, in the source's order.  `Flag`
checks are bit tests on the flags byte (`SINGLE_VALUE = 128` is a
`panic!("TODO")`); shift-amount and checked-arithmetic overflows that Rust
debug builds reject are panics. -/
def PairsData.new (data : List ℕ) (ptr : ℕ) (groups : GroupData) :
    PRes (PairsDataT × ℕ) :=
  match data.get? ptr with
  | none => corruptedE
  | some fl =>
    if fl / 128 % 2 = 1 then rustPanic
    else
      match data.get? (ptr + 1) with
      | none => corruptedE
      | some bsLog =>
        if 64 ≤ bsLog then rustPanic
        else
          match data.get? (ptr + 2) with
          | none => corruptedE
          | some spLog =>
            if 64 ≤ spLog then rustPanic
            else if 2 ^ 64 ≤ groups.factors.getD groups.lens.length 0 +
                2 ^ spLog then rustPanic
            else
              match data.get? (ptr + 3) with
              | none => corruptedE
              | some padding =>
                match readU32 data (ptr + 4) with
                | none => corruptedE
                | some blocksNum =>
                  if 2 ^ 32 ≤ blocksNum + padding then rustPanic
                  else
                    match data.get? (ptr + 8) with
                    | none => corruptedE
                    | some maxSymlen =>
                      match data.get? (ptr + 9) with
                      | none => corruptedE
                      | some minSymlen =>
                        if maxSymlen < minSymlen then rustPanic
                        else
                          match (buildBase data (ptr + 10)
                              (maxSymlen - minSymlen + 1) minSymlen).run with
                          | none => rustPanic
                          | some (Except.error e) =>
                            ExceptT.mk (some (Except.error e))
                          | some (Except.ok base) =>
                            if data.length <
                                ptr + 10 + (maxSymlen - minSymlen + 1) * 2 + 2
                              then rustPanic
                            else
                              match symlenTable data
                                  (ptr + 10 + (maxSymlen - minSymlen + 1) * 2
                                    + 2)
                                  (data.getD (ptr + 10 +
                                    (maxSymlen - minSymlen + 1) * 2) 0 +
                                   256 * data.getD (ptr + 10 +
                                    (maxSymlen - minSymlen + 1) * 2 + 1) 0)
                                with
                              | none => rustPanic
                              | some st =>
                                pureRes (
                                  { flags := fl
                                    groups := groups
                                    blockSize := 2 ^ bsLog
                                    span := 2 ^ spLog
                                    blocksNum := blocksNum
                                    btree := ptr + 10 +
                                      (maxSymlen - minSymlen + 1) * 2 + 2
                                    minSymlen := minSymlen
                                    lowestSym := ptr + 10
                                    base := base
                                    symlen := st.map Prod.fst
                                    sparseIndex := 0
                                    sparseIndexSize :=
                                      (groups.factors.getD groups.lens.length 0
                                        + 2 ^ spLog - 1) / 2 ^ spLog
                                    blockLengths := 0
                                    blockLengthSize := blocksNum + padding
                                    dataOfs := 0 },
                                  ptr + 10 + (maxSymlen - minSymlen + 1) * 2
                                    + 2 + st.length * 3 + st.length % 2)

/-- `Table` (`lib.rs` lines 392-401) in its pawnless shape: material key,
derived counts, the two per-side `PairsData` records of the single file
entry, and the raw bytes. -/
structure TableT where
  key : Material
  numPieces : ℕ
  numUniquePieces : ℕ
  minLikeMan : ℕ
  sides : List PairsDataT
  bytes : List ℕ
deriving DecidableEq

/-- The offset assignments finishing `Table::new` (`lib.rs` lines 452-481):
sparse-index and block-length regions for both sides in order, then the two
64-byte-aligned data payload offsets, then the table record. -/
def tableAssemble (key : Material) (data : List ℕ)
    (pairs0 pairs1 : PairsDataT) (ptr : ℕ) : TableT :=
  let p2 := ptr + pairs0.sparseIndexSize * 6
  let p3 := p2 + pairs1.sparseIndexSize * 6
  let p4 := p3 + pairs0.blockLengthSize * 2
  let p5 := p4 + pairs1.blockLengthSize * 2
  let p6 := (p5 + 63) / 64 * 64
  let p7 := p6 + pairs0.blocksNum * pairs0.blockSize
  let p8 := (p7 + 63) / 64 * 64
  { key := key
    numPieces := matCount key
    numUniquePieces := matUnique key
    minLikeMan := matMinLikeMan key
    sides := [
      { pairs0 with
        sparseIndex := ptr
        blockLengths := p3
        dataOfs := p6 },
      { pairs1 with
        sparseIndex := p2
        blockLengths := p4
        dataOfs := p8 }]
    bytes := data }

/-- `Chess::WDL_MAGIC` (`lib.rs` line 60): `0x71 0xE8 0x23 0x5D`. -/
def chessWdlMagic : List ℕ := [113, 232, 35, 93]

/-- `Chess::CONNECTED_KINGS` (`lib.rs` line 62). -/
def chessConnectedKings : Bool := false

/-- `Table::new` (`lib.rs` lines 419-482) for a variant with the given WDL
magic and `CONNECTED_KINGS` flag.  The magic check is
`assert!(data.starts_with(&P::WDL_MAGIC))` - a panic, not an error return -
as are the layout-consistency asserts and the pawnful
`panic!("not yet implemented")`. -/
def tableNew (magic : List ℕ) (ck : Bool) (data : List ℕ) : PRes TableT :=
  if ¬ data.take 4 = magic then rustPanic
  else
    match data.get? 4 with
    | none => rustPanic
    | some layout =>
      if data.length < 6 then rustPanic
      else
        match parsePieces (data.drop 6) true with
        | Except.error _ => corruptedE
        | Except.ok key =>
          if decide (layout / 2 % 2 = 1) ≠ matHasPawns key then rustPanic
          else if decide (layout % 2 = 1) = matIsSymmetric key then rustPanic
          else if matHasPawns key then rustPanic
          else
            match (GroupData.parse ck data 5 false).run with
            | none => rustPanic
            | some (Except.error e) => ExceptT.mk (some (Except.error e))
            | some (Except.ok groupB) =>
              match (PairsData.new data
                  (5 + groupB.pieces.length + 1 +
                    (5 + groupB.pieces.length + 1) % 2) groupB).run with
              | none => rustPanic
              | some (Except.error e) => ExceptT.mk (some (Except.error e))
              | some (Except.ok (pairs0, ptrA)) =>
                match (GroupData.parse ck data 5 true).run with
                | none => rustPanic
                | some (Except.error e) => ExceptT.mk (some (Except.error e))
                | some (Except.ok groupW) =>
                  match (PairsData.new data ptrA groupW).run with
                  | none => rustPanic
                  | some (Except.error e) =>
                    ExceptT.mk (some (Except.error e))
                  | some (Except.ok (pairs1, ptrB)) =>
                    pureRes (tableAssemble key data pairs0 pairs1 ptrB)

/-! ## C2: `Table::probe_wdl_table` (`lib.rs` lines 558-654) and
`Table::decompress_pairs` (`lib.rs` lines 484-556)

The probe function itself.  It consumes the position only through
`pos.board()` and `pos.turn()`: the position's castling-rights component is
never read, there is no piece-count comparison against `MAX_PIECES`, and no
table-set lookup is performed - a material key that differs from the table's
key merely makes `black_stronger` true.  Its return type carries `lib.rs`'s
`SyzygyError`, whose only kind is `CorruptedTable`; in fact every failure
inside the function is a panic, never an `Err`. -/

/-- `Material::from_board(pos.board())` (`lib.rs` line 559): the multiset of
pieces on the board.  (`material.rs` is absent from the tree; a key is its
piece multiset, so the key of a board is exactly the board's pieces.) -/
def boardMaterial (board : Fin 64 → Option Piece) : Material :=
  (List.finRange 64).filterMap board

/-- The `TRIANGLE` table (`lib.rs` lines 68-77). -/
def TRIANGLE : List ℕ :=
  [6, 0, 1, 2, 2, 1, 0, 6,
   0, 7, 3, 4, 4, 3, 7, 0,
   1, 3, 8, 5, 5, 8, 3, 1,
   2, 4, 5, 9, 9, 5, 4, 2,
   2, 4, 5, 9, 9, 5, 4, 2,
   1, 3, 8, 5, 5, 8, 3, 1,
   0, 7, 3, 4, 4, 3, 7, 0,
   6, 0, 1, 2, 2, 1, 0, 6]

/-- Big-endian u32 read (`BigEndian::read_u32` of `&data[p..]`); an
out-of-range read is an indexing panic (`none`). -/
def readU32be (data : List ℕ) (p : ℕ) : Option ℕ :=
  match data.get? p, data.get? (p + 1), data.get? (p + 2),
      data.get? (p + 3) with
  | some b0, some b1, some b2, some b3 =>
    some (((b0 * 256 + b1) * 256 + b2) * 256 + b3)
  | _, _, _, _ => none

/-- Big-endian u64 read (`BigEndian::read_u64` of `&data[p..]`); an
out-of-range read is an indexing panic (`none`). -/
def readU64be (data : List ℕ) (p : ℕ) : Option ℕ :=
  match readU32be data p, readU32be data (p + 4) with
  | some hi, some lo => some (hi * 2 ^ 32 + lo)
  | _, _ => none

/-- The `as i64` cast of a `u64`/`usize` value: two's-complement
reinterpretation. -/
def asI64 (n : ℕ) : ℤ :=
  if n < 2 ^ 63 then (n : ℤ) else (n : ℤ) - 2 ^ 64

/-- The backward block walk of `decompress_pairs` (`lib.rs` lines 497-500):
while `offset < 0`, step to the previous block (`block -= 1` underflows at
block 0, a debug panic) and add that block's stored length plus one.
Fuelled: every iteration increases `offset` by at least one, so
`offset.natAbs + 1` units of fuel (as passed by `decompressPairs`) always
suffice and the fuel-out case is unreachable. -/
def walkBack (bytes : List ℕ) (blockLengths : ℕ) :
    ℕ → ℤ → ℕ → Option (ℕ × ℤ)
  | 0, _, _ => none
  | fuel + 1, offset, block =>
    if offset < 0 then
      if block = 0 then none
      else
        match readU16 bytes (blockLengths + (block - 1) * 2) with
        | none => none
        | some len =>
          walkBack bytes blockLengths fuel (offset + len + 1) (block - 1)
    else some (block, offset)

/-- The forward block walk of `decompress_pairs` (`lib.rs` lines 502-505):
while `offset` exceeds the block's stored length, subtract that length plus
one and step to the next block.  Fuelled: every iteration decreases a
positive `offset` by at least one, so `offset.toNat + 1` units always
suffice. -/
def walkFwd (bytes : List ℕ) (blockLengths : ℕ) :
    ℕ → ℤ → ℕ → Option (ℕ × ℤ)
  | 0, _, _ => none
  | fuel + 1, offset, block =>
    match readU16 bytes (blockLengths + block * 2) with
    | none => none
    | some len =>
      if (len : ℤ) < offset then
        walkFwd bytes blockLengths fuel (offset - (len + 1)) (block + 1)
      else some (block, offset)

/-- The code-length scan of the Huffman loop (`lib.rs` line 518:
`while buf_64 < d.base[len] do len += 1`).  Indexing `base` out of range is
a panic (`none`). -/
def huffLen (base : List ℕ) (buf : ℕ) (len : ℕ) : Option ℕ :=
  if h : len < base.length then
    if buf < base.get ⟨len, h⟩ then huffLen base buf (len + 1) else some len
  else none
termination_by base.length - len
decreasing_by omega

/-- The symbol extraction of the Huffman loop (`lib.rs` line 522) before the
`lowest_sym` offset is added:
`((buf_64 - d.base[len]) >> (64 - len - d.min_symlen)) as u16`. -/
def huffSym (base : List ℕ) (buf len minSymlen : ℕ) : ℕ :=
  (buf - base.getD len 0) / 2 ^ (64 - len - minSymlen) % 2 ^ 16

/-- The Huffman decode loop of `decompress_pairs` (`lib.rs` lines 515-540).
A `none` is a panic: an out-of-range index, a shift amount of 64 or more, or
a `u16`/`usize` over- or underflow that a debug build rejects.  Fuelled:
every non-breaking iteration decreases `offset` by `symlen[sym] + 1 ≥ 1` and
the loop breaks as soon as `offset ≤ 0`, so `offset.toNat + 1` units always
suffice. -/
def huffLoop (bytes : List ℕ) (lowestSym minSymlen : ℕ)
    (base symlen : List ℕ) : ℕ → ℤ → ℕ → ℕ → ℕ → Option (ℕ × ℤ)
  | 0, _, _, _, _ => none
  | fuel + 1, offset, buf, bufSize, ptr =>
    match huffLen base buf 0 with
    | none => none
    | some len =>
      if 64 < len + minSymlen then none
      else if len + minSymlen = 0 then none
      else
        match readU16 bytes (lowestSym + 2 * len) with
        | none => none
        | some low =>
          if 2 ^ 16 ≤ huffSym base buf len minSymlen + low then none
          else
            match symlen.get? (huffSym base buf len minSymlen + low) with
            | none => none
            | some sl =>
              if offset < (sl : ℤ) + 1 then
                some (huffSym base buf len minSymlen + low, offset)
              else if 64 ≤ len + minSymlen then none
              else if bufSize < len + minSymlen then none
              else if bufSize - (len + minSymlen) ≤ 32 then
                match readU32be bytes ptr with
                | none => none
                | some w =>
                  huffLoop bytes lowestSym minSymlen base symlen fuel
                    (offset - ((sl : ℤ) + 1))
                    (Nat.lor (buf * 2 ^ (len + minSymlen) % 2 ^ 64)
                      (w * 2 ^ (64 - (bufSize - (len + minSymlen) + 32))))
                    (bufSize - (len + minSymlen) + 32) (ptr + 4)
              else
                huffLoop bytes lowestSym minSymlen base symlen fuel
                  (offset - ((sl : ℤ) + 1))
                  (buf * 2 ^ (len + minSymlen) % 2 ^ 64)
                  (bufSize - (len + minSymlen)) ptr

/-- `Table::decompress_pairs` (`lib.rs` lines 484-556): the single-value
short cut, the sparse-index lookup (`k = idx / span`, a division panic when
`span = 0`), the block walks, the Huffman decode loop, and the
symbol-expansion descent (`symExpand`, the C1 embedding; it keeps the
source's high-bits-first descent).  The `println!` side effect is ignored.
Descent fuel: a run that terminates in Rust never repeats a
`(symbol, offset)` state (the state is all the loop carries, so a repeat
would recur forever), and `offset` never increases, so
`(symlen.length + 1) * (offset.toNat + 2)` bounds every terminating run;
runs that diverge in Rust return `none`. -/
def decompressPairs (bytes : List ℕ) (d : PairsDataT) (idx : ℕ) : Option ℕ :=
  if d.flags / 128 % 2 = 1 then some d.minSymlen
  else if d.span = 0 then none
  else
    match readU32 bytes (d.sparseIndex + 6 * (idx / d.span)) with
    | none => none
    | some block0 =>
      match readU16 bytes (d.sparseIndex + 6 * (idx / d.span) + 4) with
      | none => none
      | some off0 =>
        match walkBack bytes d.blockLengths
            (((off0 : ℤ) + (Int.tmod (asI64 idx) (asI64 d.span) -
              Int.tdiv (asI64 d.span) 2)).natAbs + 1)
            ((off0 : ℤ) + (Int.tmod (asI64 idx) (asI64 d.span) -
              Int.tdiv (asI64 d.span) 2)) block0 with
        | none => none
        | some (block1, offset1) =>
          match walkFwd bytes d.blockLengths (offset1.toNat + 1) offset1
              block1 with
          | none => none
          | some (block2, offset2) =>
            match readU64be bytes (d.dataOfs + block2 * d.blockSize) with
            | none => none
            | some buf =>
              match huffLoop bytes d.lowestSym d.minSymlen d.base d.symlen
                  (offset2.toNat + 1) offset2 buf 64
                  (d.dataOfs + block2 * d.blockSize + 8) with
              | none => none
              | some (sym, offset3) =>
                symExpand bytes d.btree d.symlen
                  ((d.symlen.length + 1) * (offset3.toNat + 2)) offset3 sym

/-- The diagonal fold as executed inside `probe_wdl_table` (`lib.rs` lines
593-605): the same walk as `dFoldGo`, except that running out of squares
with loop budget left is the source's out-of-range `squares[i]` panic
(`none`). -/
def dFoldP : ℕ → List (Fin 64) → Option (List (Fin 64))
  | 0, xs => some xs
  | _ + 1, [] => none
  | n + 1, s :: rest =>
    if file s = rank s then (dFoldP n rest).map (s :: ·)
    else if file s < rank s then some ((s :: rest).map mirrorDiagonal)
    else some (s :: rest)

/-- Insert a square into an ascending list (`slice::sort` helper). -/
def insertAsc (a : Fin 64) : List (Fin 64) → List (Fin 64)
  | [] => [a]
  | b :: bs => if a ≤ b then a :: b :: bs else b :: insertAsc a bs

/-- `group_squares.sort()` (`lib.rs` line 631): ascending insertion sort.
Squares are totally ordered, so every comparison sort yields this list. -/
def sortSquares : List (Fin 64) → List (Fin 64)
  | [] => []
  | a :: rest => insertAsc a (sortSquares rest)

/-- The inner binomial sum of the remaining-group loop (`lib.rs` lines
633-636): for each index `i` of the (sorted) group, count the previous
squares below `group[i]` and add
`binomial(group[i] - adjust - pawnOfs, i + 1)`; a `u64` subtraction
underflow is a debug panic (`none`).  `remaining_pawns` is initialised
`false` and only ever reassigned `false` (`lib.rs` lines 624, 638), so
`pawnOfs` is 0 at the call site; it is kept as an argument for fidelity to
the expression.  No overflow guard is needed: the arguments are below 64,
so each binomial is below `2^60` and at most six are summed. -/
def groupN (prev : List (Fin 64)) (pawnOfs : ℕ) :
    List (Fin 64) → ℕ → ℕ → Option ℕ
  | [], _, acc => some acc
  | g :: gs, i, acc =>
    if g.val < (prev.filter fun sq => sq < g).length + pawnOfs then none
    else
      groupN prev pawnOfs gs (i + 1)
        (acc + Nat.choose
          (g.val - (prev.filter fun sq => sq < g).length - pawnOfs) (i + 1))

/-- The remaining-group loop of `probe_wdl_table` (`lib.rs` lines 624-643):
for each later group (`lens[1..]`, with `next` starting at 1), split the
square list at `group_sq`, take and sort the group's squares in place,
accumulate `n * factors[next]` into the index (a `u64` overflow is a debug
panic), and advance `group_sq` (a `u8` in the source, so exceeding 255 is a
debug overflow panic).  `split_at_mut`, the `[..lens]` slice and
`factors[next]` panic when out of range. -/
def groupLoop (factors : List ℕ) :
    List ℕ → ℕ → ℕ → List (Fin 64) → ℕ → Option ℕ
  | [], _, _, _, idx => some idx
  | lg :: rest, next, groupSq, squares, idx =>
    if squares.length < groupSq then none
    else if (squares.drop groupSq).length < lg then none
    else
      match groupN (squares.take groupSq) 0
          (sortSquares ((squares.drop groupSq).take lg)) 0 0 with
      | none => none
      | some n =>
        match factors.get? next with
        | none => none
        | some fn =>
          if 2 ^ 64 ≤ idx + n * fn then none
          else if 2 ^ 8 ≤ groupSq + lg then none
          else
            groupLoop factors rest (next + 1) (groupSq + lg)
              (squares.take groupSq ++
                sortSquares ((squares.drop groupSq).take lg) ++
                (squares.drop groupSq).drop lg)
              (idx + n * fn)

/-- `Table::probe_wdl_table` (`lib.rs` lines 558-654).  The position enters
only through its board (`pos.board()`, line 559) and its turn
(`pos.turn()`, lines 561-563); `_hasCastling` stands for the position's
castling-rights component, which the source never reads.  There is no
castling check, no piece-count check against `MAX_PIECES`, and no table-set
lookup: a material key differing from the table's key merely makes
`black_stronger` true inside `probeFlip` (lines 561-563).  Failures are
panics (`none`): `assert!(!key.has_pawns())`, the `.expect("piece exists")`
of the square builder, out-of-range indexing, the
`panic!("enc 0 not fully implemented")` and `panic!("mapkk not
implemented")` arms, debug-build arithmetic overflow, and the
`unreachable!` arm of the final WDL match; and the only error kind its
`Result` can carry is `CorruptedTable`. -/
def probeWdlTable (tbl : TableT) (board : Fin 64 → Option Piece)
    (turnWhite _hasCastling : Bool) : PRes Wdl :=
  if matHasPawns (boardMaterial board) then rustPanic
  else
    match tbl.sides.get?
        (if xor (probeFlip tbl.key (boardMaterial board) turnWhite) turnWhite
          then 0 else 1) with
    | none => rustPanic
    | some side =>
      match buildSquares board
          (probeFlip tbl.key (boardMaterial board) turnWhite)
          side.groups.pieces [] with
      | none => rustPanic
      | some squares0 =>
        if squares0 = [] then rustPanic
        else
          match side.groups.lens with
          | [] => rustPanic
          | l0 :: lensRest =>
            match dFoldP l0 (vFold (hFold squares0)) with
            | none => rustPanic
            | some squares =>
              if 2 < tbl.numUniquePieces then
                match squares.get? 0, squares.get? 1, squares.get? 2 with
                | some s0, some s1, some s2 =>
                  if file s0 = rank s0 then rustPanic
                  else
                    match side.groups.factors.get? 0 with
                    | none => rustPanic
                    | some f0 =>
                      if 2 ^ 64 ≤ (TRIANGLE.getD s0.val 0 * 63 * 62 +
                          (s1.val - (if s0 < s1 then 1 else 0)) * 62 +
                          (s2.val - ((if s0 < s2 then 1 else 0) +
                            (if s1 < s2 then 1 else 0)))) * f0 then rustPanic
                      else
                        match groupLoop side.groups.factors lensRest 1 l0
                            squares
                            ((TRIANGLE.getD s0.val 0 * 63 * 62 +
                              (s1.val - (if s0 < s1 then 1 else 0)) * 62 +
                              (s2.val - ((if s0 < s2 then 1 else 0) +
                                (if s1 < s2 then 1 else 0)))) * f0) with
                        | none => rustPanic
                        | some idx =>
                          match decompressPairs tbl.bytes side idx with
                          | none => rustPanic
                          | some b => wdlFromByte b
                | _, _, _ => rustPanic
              else rustPanic

/-- The group data of a two-kings side, for the concrete probes below. -/
def groupsC2 : GroupData :=
  { pieces := [⟨true, .king⟩, ⟨false, .king⟩], lens := [2],
    factors := [1, 462] }

/-- A minimal concrete `PairsData` record for the concrete probes below;
its decompression fields are never reached, since the probe panics at
`panic!("mapkk not implemented")` first. -/
def pairsC2 : PairsDataT :=
  { flags := 0
    groups := groupsC2
    blockSize := 0
    span := 0
    blocksNum := 0
    btree := 0
    minSymlen := 0
    lowestSym := 0
    base := []
    symlen := []
    sparseIndex := 0
    sparseIndexSize := 0
    blockLengths := 0
    blockLengthSize := 0
    dataOfs := 0 }

/-- A two-kings table record (material `KvK`, `num_unique_pieces = 2`): the
probe reaches `panic!("mapkk not implemented")` on it instead of performing
any rejection. -/
def tblC2 : TableT :=
  { key := [⟨true, .king⟩, ⟨false, .king⟩]
    numPieces := 2
    numUniquePieces := 2
    minLikeMan := 0
    sides := [pairsC2, pairsC2]
    bytes := [] }

/-- A `KvK` board (white king a1, black king c1); probed with castling
rights present, the claim demands the `Castling` error. -/
def boardC2 : Fin 64 → Option Piece := fun sq =>
  if sq.val = 0 then some ⟨true, Role.king⟩
  else if sq.val = 2 then some ⟨false, Role.king⟩
  else none

/-- A `KQvK` board (white king a1, white queen b1, black king c1); its
material key differs from the `KvK` table's key and is in no loaded table
set, so the claim demands the `MissingTable` error. -/
def boardQC2 : Fin 64 → Option Piece := fun sq =>
  if sq.val = 0 then some ⟨true, Role.king⟩
  else if sq.val = 1 then some ⟨true, Role.queen⟩
  else if sq.val = 2 then some ⟨false, Role.king⟩
  else none


end Syzygy

namespace Syzygy

/-! ## Theorems for C10, C3, C2 -/

/-- C10: `Wdl` negation is an involution whose only fixed point is `Draw`,
and it agrees with integer negation of the `#[repr(i8)]` representation:
for every `w`, `-(-w) = w`, `i8::from(-w) = -i8::from(w)`, `-w = w` exactly
for `Draw`, with `Loss = -2`, `BlessedLoss = -1`, `Draw = 0`,
`CursedWin = 1`, `Win = 2`. -/
theorem wdl_neg_involution_repr :
    (∀ w : Wdl, w.neg.neg = w) ∧
    (∀ w : Wdl, (w.neg = w) ↔ w = Wdl.draw) ∧
    (∀ w : Wdl, w.neg.toInt = -w.toInt) ∧
    Wdl.toInt Wdl.loss = -2 ∧ Wdl.toInt Wdl.blessedLoss = -1 ∧
    Wdl.toInt Wdl.draw = 0 ∧ Wdl.toInt Wdl.cursedWin = 1 ∧
    Wdl.toInt Wdl.win = 2 := by
  refine ⟨?_, ?_, ?_, rfl, rfl, rfl, rfl, rfl⟩ <;> intro w <;> cases w <;> decide

/-- C3 counterexample: on decompressed byte 5 the code panics
(`unreachable!`), it does not return the `CorruptedTable` error the claim
requires. -/
theorem wdl_from_byte_five_panics :
    wdlFromByte 5 = rustPanic ∧
    wdlFromByte 5 ≠ ofExcept (Except.error ErrorKind.corruptedTable) := by
  constructor
  · rfl
  · intro h
    simp [wdlFromByte, rustPanic, ofExcept, ExceptT.mk] at h

/-- C3 amended: `probe_wdl_table` maps the decompressed byte as
`0 → Loss, 1 → BlessedLoss, 2 → Draw, 3 → CursedWin, 4 → Win`, and for every
byte outside `0..=4` it panics via `unreachable!` (it does not return a
`CorruptedTable` error). -/
theorem wdl_from_byte_mapping :
    wdlFromByte 0 = ofExcept (Except.ok Wdl.loss) ∧
    wdlFromByte 1 = ofExcept (Except.ok Wdl.blessedLoss) ∧
    wdlFromByte 2 = ofExcept (Except.ok Wdl.draw) ∧
    wdlFromByte 3 = ofExcept (Except.ok Wdl.cursedWin) ∧
    wdlFromByte 4 = ofExcept (Except.ok Wdl.win) ∧
    ∀ b : ℕ, 4 < b → wdlFromByte b = rustPanic := by
  refine ⟨rfl, rfl, rfl, rfl, rfl, ?_⟩
  intro b hb
  match b, hb with
  | n + 5, _ => rfl

/-- C3 amended, witness: the mapping evaluated at byte 7. -/
theorem wdl_from_byte_mapping_witness :
    4 < 7 ∧ wdlFromByte 7 = rustPanic :=
  ⟨by decide, wdl_from_byte_mapping.2.2.2.2.2 7 (by decide)⟩

/-! ## C2: `probe_wdl_table` performs no fail-fast rejection -/

/-- The final WDL match never produces an `Err`: bytes 0-4 are `Ok`, every
other byte is the `unreachable!` panic. -/
theorem wdlFromByte_ne_err (b : ℕ) (e : ErrorKind) :
    wdlFromByte b ≠ ExceptT.mk (some (Except.error e)) := by
  match b with
  | 0 | 1 | 2 | 3 | 4 => intro h; exact Except.noConfusion (Option.some.inj h)
  | _ + 5 => intro h; exact Option.noConfusion h

/-- C2, counterexample: `probe_wdl_table` performs none of the claimed
fail-fast rejections.  A `KvK` position probed with castling rights runs
straight into the index computation and panics at
`panic!("mapkk not implemented")` instead of returning a `Castling` error;
a `KQvK` position probed against a `KvK` table (its material key is in no
loaded table set - the function receives no table set to consult) likewise
panics instead of returning `MissingTable`; and `lib.rs`'s `SyzygyError`
carries only `CorruptedTable`, so a panic is not a non-`CorruptedTable`
error return - no such value even exists in the function's result type. -/
theorem probe_wdl_table_no_reject_counterexample :
    probeWdlTable tblC2 boardC2 true true = rustPanic ∧
    probeWdlTable tblC2 boardQC2 true false = rustPanic ∧
    (rustPanic : PRes Wdl) ≠
      ExceptT.mk (some (Except.error ErrorKind.corruptedTable)) := by
  refine ⟨rfl, rfl, ?_⟩
  intro h
  exact Option.noConfusion h

/-- C2 amended: `probe_wdl_table` performs no fail-fast checks at all.  Its
result is independent of the position's castling-rights component, which it
never reads; and it never returns any error value - `CorruptedTable`
included: all its failures are panics - so in particular it cannot reject a
position with castling rights, with more than `MAX_PIECES` pieces, or with
material absent from a table set with the `Castling`, `TooManyPieces` or
`MissingTable` errors, none of which exists in `lib.rs`'s `SyzygyError`.  A
mismatched material key is not looked up anywhere: it only drives the
colour flip (`black_stronger`, inside `probeFlip`). -/
theorem probe_wdl_table_no_fail_fast :
    (∀ (tbl : TableT) (board : Fin 64 → Option Piece)
      (turnWhite c1 c2 : Bool),
      probeWdlTable tbl board turnWhite c1 =
        probeWdlTable tbl board turnWhite c2) ∧
    (∀ (tbl : TableT) (board : Fin 64 → Option Piece) (turnWhite c : Bool)
      (e : ErrorKind),
      probeWdlTable tbl board turnWhite c ≠
        ExceptT.mk (some (Except.error e))) := by
  refine ⟨fun _ _ _ _ _ => rfl, ?_⟩
  intro tbl board turnWhite c e h
  unfold probeWdlTable at h
  repeat' split at h
  all_goals
    first
    | exact Option.noConfusion h
    | exact wdlFromByte_ne_err _ _ h

/-- C2 amended, witness: castling-independence and the impossibility of an
error return, evaluated on the concrete `KvK` table and board. -/
theorem probe_wdl_table_no_fail_fast_witness :
    probeWdlTable tblC2 boardC2 true true =
      probeWdlTable tblC2 boardC2 true false ∧
    probeWdlTable tblC2 boardC2 true true ≠
      ExceptT.mk (some (Except.error ErrorKind.corruptedTable)) :=
  ⟨probe_wdl_table_no_fail_fast.1 tblC2 boardC2 true true false,
   probe_wdl_table_no_fail_fast.2 tblC2 boardC2 true true
     ErrorKind.corruptedTable⟩

/-! ## Square geometry lemmas -/

theorem file_lt_eight : ∀ sq : Fin 64, file sq < 8 := by decide

theorem file_mirrorHorizontal :
    ∀ sq : Fin 64, file (mirrorHorizontal sq) = 7 - file sq := by decide

theorem rank_lt_eight : ∀ sq : Fin 64, rank sq < 8 := by decide

theorem rank_mirrorVertical :
    ∀ sq : Fin 64, rank (mirrorVertical sq) = 7 - rank sq := by decide

theorem file_mirrorDiagonal :
    ∀ sq : Fin 64, file (mirrorDiagonal sq) = rank sq := by decide

theorem rank_mirrorDiagonal :
    ∀ sq : Fin 64, rank (mirrorDiagonal sq) = file sq := by decide

/-- C9: the canonicalization folds of `probe_wdl_table` are idempotent:
applying the horizontal fold (mirror all when the leading square's file ≥ 4),
the vertical fold (mirror all when the leading square's rank ≥ 4), and the
diagonal fold (mirror from the first off-diagonal leading square with
rank > file onward) a second time leaves the square list unchanged. -/
theorem folds_idempotent :
    (∀ xs : List (Fin 64), hFold (hFold xs) = hFold xs) ∧
    (∀ xs : List (Fin 64), vFold (vFold xs) = vFold xs) ∧
    (∀ (n : ℕ) (xs : List (Fin 64)), dFoldGo n (dFoldGo n xs) = dFoldGo n xs)
    := by
  refine ⟨?_, ?_, ?_⟩
  · intro xs
    match xs with
    | [] => rfl
    | s :: rest =>
      by_cases h : 4 ≤ file s
      · have e1 : hFold (s :: rest) =
            mirrorHorizontal s :: rest.map mirrorHorizontal := by
          simp [hFold, h]
        rw [e1]
        have h2 : ¬ 4 ≤ file (mirrorHorizontal s) := by
          rw [file_mirrorHorizontal s]
          have := file_lt_eight s
          omega
        simp [hFold, h2]
      · have e1 : hFold (s :: rest) = s :: rest := by simp [hFold, h]
        rw [e1, e1]
  · intro xs
    match xs with
    | [] => rfl
    | s :: rest =>
      by_cases h : 4 ≤ rank s
      · have e1 : vFold (s :: rest) =
            mirrorVertical s :: rest.map mirrorVertical := by
          simp [vFold, h]
        rw [e1]
        have h2 : ¬ 4 ≤ rank (mirrorVertical s) := by
          rw [rank_mirrorVertical s]
          have := rank_lt_eight s
          omega
        simp [vFold, h2]
      · have e1 : vFold (s :: rest) = s :: rest := by simp [vFold, h]
        rw [e1, e1]
  · intro n
    induction n with
    | zero => intro xs; cases xs <;> rfl
    | succ n ih =>
      intro xs
      match xs with
      | [] => rfl
      | s :: rest =>
        by_cases hd : file s = rank s
        · have e1 : dFoldGo (n + 1) (s :: rest) = s :: dFoldGo n rest := by
            simp [dFoldGo, hd]
          have e2 : ∀ l, dFoldGo (n + 1) (s :: l) = s :: dFoldGo n l := by
            intro l; simp [dFoldGo, hd]
          rw [e1, e2, ih]
        · by_cases hlt : file s < rank s
          · have e1 : dFoldGo (n + 1) (s :: rest) =
                mirrorDiagonal s :: rest.map mirrorDiagonal := by
              simp [dFoldGo, hd, hlt]
            rw [e1]
            have hd2 : ¬ file (mirrorDiagonal s) = rank (mirrorDiagonal s)
                := by
              rw [file_mirrorDiagonal, rank_mirrorDiagonal]
              omega
            have hlt2 : ¬ file (mirrorDiagonal s) < rank (mirrorDiagonal s)
                := by
              rw [file_mirrorDiagonal, rank_mirrorDiagonal]
              omega
            simp [dFoldGo, hd2, hlt2]
          · have e1 : dFoldGo (n + 1) (s :: rest) = s :: rest := by
              simp [dFoldGo, hd, hlt]
            rw [e1]
            exact e1

/-! ## C7 theorems -/

theorem foldl_min_of_le {α : Type} [LinearOrder α] (l : List α) (a : α)
    (h : ∀ x ∈ l, a ≤ x) : l.foldl min a = a := by
  induction l with
  | nil => rfl
  | cons x xs ih =>
    have hax : a ≤ x := h x (by simp)
    simp only [List.foldl_cons, min_eq_left hax]
    exact ih fun y hy => h y (by simp [hy])

theorem min?_eq_head?_of_sorted {α : Type} [LinearOrder α] (l : List α)
    (h : l.Pairwise (· ≤ ·)) : l.min? = l.head? := by
  cases l with
  | nil => rfl
  | cons a as =>
    show some (as.foldl min a) = some a
    rw [foldl_min_of_le as a (List.pairwise_cons.mp h).1]

theorem locate_head_eq_min (board : Fin 64 → Option Piece) (p : Piece)
    (used : List (Fin 64)) :
    ((byPiece board p).filter fun sq => !used.contains sq).head? =
      locateSpec board p used := by
  unfold byPiece locateSpec
  rw [List.filter_filter]
  have hs : ((List.finRange 64).filter
      fun sq => board sq == some p && !used.contains sq).Pairwise (· ≤ ·) :=
    ((List.pairwise_lt_finRange 64).filter _).imp le_of_lt
  rw [min?_eq_head?_of_sorted _ hs]
  have he : List.filter (fun a => !used.contains a && (board a == some p))
        (List.finRange 64) =
      List.filter (fun sq => (board sq == some p) && !used.contains sq)
        (List.finRange 64) :=
    List.filter_congr fun a _ => Bool.and_comm _ _
  rw [he]

theorem build_squares_eq_spec (board : Fin 64 → Option Piece) (flip : Bool)
    (ps : List Piece) (used : List (Fin 64)) :
    buildSquares board flip ps used =
      (buildSquaresSpec board flip ps used).toOption := by
  induction ps generalizing used with
  | nil => rfl
  | cons p ps ih =>
    simp only [buildSquares, buildSquaresSpec]
    rw [locate_head_eq_min]
    rcases hls : locateSpec board ⟨xor p.white flip, p.role⟩ used with _ | sq
    · rfl
    · show Option.map (fun x => sq :: x) (buildSquares board flip ps
          (sq :: used)) =
        (Except.map (fun x => sq :: x) (buildSquaresSpec board flip ps
          (sq :: used))).toOption
      rw [ih (sq :: used)]
      cases buildSquaresSpec board flip ps (sq :: used) <;> rfl

/-- C7 counterexample: on an empty board, a piece whose square cannot be
located makes the construction panic (the `.expect("piece exists")` call),
while the claim's reading returns a `ProbeFailed` error. -/
theorem build_squares_missing_panics :
    buildSquares (fun _ => none) false [⟨true, Role.king⟩] [] = none ∧
    buildSquaresSpec (fun _ => none) false [⟨true, Role.king⟩] [] =
      Except.error SquaresError.probeFailed := by
  constructor <;> rfl

/-- C7 amended: squares are built in the exact order of `side.pieces`, each
piece's colour flipped iff `symmetric_btm || black_stronger` and squares
taken by earlier slots excluded; but when a piece's square cannot be located
the code panics via `.expect("piece exists")` instead of returning an error:
the construction equals the claim's `ProbeFailed`-reporting description with
the error collapsed into a panic (`Except.toOption`). -/
theorem build_squares_order_flip_exclusion :
    ∀ (board : Fin 64 → Option Piece) (tableKey posKey : Material)
      (turnWhite : Bool) (ps : List Piece) (used : List (Fin 64)),
      buildSquares board (probeFlip tableKey posKey turnWhite) ps used =
        (buildSquaresSpec board (probeFlip tableKey posKey turnWhite) ps
          used).toOption :=
  fun board _ _ _ ps used => build_squares_eq_spec board _ ps used

/-! ## C4 theorems -/

theorem corruptedE_ne_pureRes {α : Type} (a : α) : corruptedE ≠ pureRes a := by
  intro h
  have h2 : (some (Except.error ErrorKind.corruptedTable) :
      Option (Except ErrorKind α)) = some (Except.ok a) := h
  simp at h2

theorem rustPanic_ne_pureRes {α : Type} (a : α) : rustPanic ≠ pureRes a := by
  intro h
  have h2 : (none : Option (Except ErrorKind α)) = some (Except.ok a) := h
  simp at h2

theorem pureRes_inj {α : Type} {a b : α} (h : pureRes a = pureRes b) :
    a = b := by
  have h2 : (some (Except.ok a) : Option (Except ErrorKind α)) =
    some (Except.ok b) := h
  simp only [Option.some.injEq, Except.ok.injEq] at h2
  exact h2

theorem get?_set_self {α : Type} :
    ∀ (l : List α) (n : ℕ) (a : α), n < l.length →
      (l.set n a).get? n = some a := by
  intro l
  induction l with
  | nil => intro n a hn; simp at hn
  | cons x xs ih =>
    intro n a hn
    cases n with
    | zero => rfl
    | succ m => exact ih m a (Nat.lt_of_succ_lt_succ hn)

theorem factorLoop_length (ck hp : Bool) (u ml : ℕ) (lens : List ℕ)
    (o0 o1 : ℕ) :
    ∀ (n : ℕ) (st st' : FactorState), factorMeasure lens o0 o1 st ≤ n →
      factorLoop ck hp u ml lens o0 o1 st = some st' →
      st'.factors.length = st.factors.length := by
  intro n
  induction n with
  | zero =>
    intro st st' hm h
    have hc : ¬ (st.next < lens.length ∨ st.k = o0 ∨ st.k = o1) := by
      dsimp only [factorMeasure] at hm
      intro hor
      split_ifs at hm <;> omega
    rw [factorLoop, dif_neg hc] at h
    rw [Option.some.inj h]
  | succ n ih =>
    intro st st' hm h
    rw [factorLoop] at h
    split at h
    · split at h
      · split at h
        · simp at h
        · split at h
          · refine (ih _ st' ?_ h).trans (by simp)
            dsimp only [factorMeasure] at hm ⊢
            split_ifs at hm ⊢ <;> omega
          · split at h
            · refine (ih _ st' ?_ h).trans (by simp)
              dsimp only [factorMeasure] at hm ⊢
              split_ifs at hm ⊢ <;> omega
            · split at h
              · refine (ih _ st' ?_ h).trans (by simp)
                dsimp only [factorMeasure] at hm ⊢
                split_ifs at hm ⊢ <;> omega
              · simp at h
      · split at h
        · refine (ih _ st' ?_ h).trans (by simp)
          dsimp only [factorMeasure] at hm ⊢
          split_ifs at hm ⊢ <;> omega
        · refine (ih _ st' ?_ h).trans (by simp)
          dsimp only [factorMeasure] at hm ⊢
          split_ifs at hm ⊢ <;> omega
    · rw [Option.some.inj h]

/-- C4: in `GroupData::parse` on a pawnless piece list, the iteration at
`k = order[0]` writes `factors[0]` and multiplies the running index by 31332
when at least 3 pieces are unique, by 518 (`CONNECTED_KINGS`) or 462 when
exactly 2 are, and by 278 when `min_like_man = 2`; every other group
iteration writes `factors[next]` and multiplies by
`C(free_squares, lens[next])` with `free_squares` decreasing by
`lens[next]`; and the final entry `factors[lens.len()]` of a successful
parse equals the resulting total table size (the loop's final index). -/
theorem group_factors_pawnless (ck : Bool) :
    (∀ (u ml : ℕ) (lens : List ℕ) (o0 o1 : ℕ) (st : FactorState),
      (st.k = o0 → 3 ≤ u →
        factorLoop ck false u ml lens o0 o1 st =
          factorLoop ck false u ml lens o0 o1
            { st with
              factors := st.factors.set 0 st.idx
              idx := st.idx * 31332
              k := st.k + 1 }) ∧
      (st.k = o0 → u = 2 →
        factorLoop ck false u ml lens o0 o1 st =
          factorLoop ck false u ml lens o0 o1
            { st with
              factors := st.factors.set 0 st.idx
              idx := st.idx * (if ck then 518 else 462)
              k := st.k + 1 }) ∧
      (st.k = o0 → u ≤ 1 → ml = 2 →
        factorLoop ck false u ml lens o0 o1 st =
          factorLoop ck false u ml lens o0 o1
            { st with
              factors := st.factors.set 0 st.idx
              idx := st.idx * 278
              k := st.k + 1 }) ∧
      (st.k ≠ o0 → st.k ≠ o1 → st.next < lens.length →
        factorLoop ck false u ml lens o0 o1 st =
          factorLoop ck false u ml lens o0 o1
            { st with
              factors := st.factors.set st.next st.idx
              idx := st.idx * Nat.choose st.freeSquares (lens.getD st.next 0)
              freeSquares := st.freeSquares - lens.getD st.next 0
              next := st.next + 1
              k := st.k + 1 })) ∧
    (∀ (data : List ℕ) (ptr : ℕ) (sideWhite : Bool) (gd : GroupData),
      GroupData.parse ck data ptr sideWhite = pureRes gd →
      ∃ (stF : FactorState) (o0 o1 : ℕ),
        factorLoop ck (matHasPawns gd.pieces) (matUnique gd.pieces)
          (matMinLikeMan gd.pieces) gd.lens o0 o1 (factorInit gd.pieces) =
          some stF ∧
        gd.lens = groupPieces gd.pieces ∧
        gd.factors = stF.factors.set gd.lens.length stF.idx ∧
        gd.factors.get? gd.lens.length = some stF.idx) := by
  constructor
  · intro u ml lens o0 o1 st
    refine ⟨?_, ?_, ?_, ?_⟩
    · intro hk h3
      rw [factorLoop, dif_pos (Or.inr (Or.inl hk)), dif_pos hk,
        if_neg Bool.false_ne_true, if_pos h3]
    · intro hk h2
      rw [factorLoop, dif_pos (Or.inr (Or.inl hk)), dif_pos hk,
        if_neg Bool.false_ne_true, if_neg (by omega : ¬ 3 ≤ u), if_pos h2]
    · intro hk h1 hml
      rw [factorLoop, dif_pos (Or.inr (Or.inl hk)), dif_pos hk,
        if_neg Bool.false_ne_true, if_neg (by omega : ¬ 3 ≤ u),
        if_neg (by omega : ¬ u = 2), if_pos hml]
    · intro hk0 hk1 hn
      rw [factorLoop, dif_pos (Or.inl hn), dif_neg hk0, dif_neg hk1]
  · intro data ptr sideWhite gd h
    unfold GroupData.parse at h
    rcases hsl : sliceFrom data (ptr + 1) with _ | tail <;> rw [hsl] at h
    · exact absurd h (corruptedE_ne_pureRes gd)
    simp only [] at h
    rcases hpp : parsePieces tail sideWhite with e | pieces <;> rw [hpp] at h
    · exact absurd h (corruptedE_ne_pureRes gd)
    simp only [] at h
    by_cases hlen : pieces.length < 2
    · rw [if_pos hlen] at h
      exact absurd h (corruptedE_ne_pureRes gd)
    rw [if_neg hlen] at h
    rcases hob : data.get? ptr with _ | ob <;> rw [hob] at h
    · exact absurd h (corruptedE_ne_pureRes gd)
    simp only [] at h
    rcases hloop : factorLoop ck (matHasPawns pieces) (matUnique pieces)
        (matMinLikeMan pieces) (groupPieces pieces)
        (if sideWhite then ob / 16 else ob % 16)
        (if sideWhite then ob % 16 else ob / 16)
        (factorInit pieces) with _ | stF <;> rw [hloop] at h
    · exact absurd h (rustPanic_ne_pureRes gd)
    simp only [] at h
    obtain rfl := pureRes_inj h
    refine ⟨stF, _, _, hloop, rfl, rfl, ?_⟩
    have hl : stF.factors.length = (groupPieces pieces).length + 1 := by
      have hpres := factorLoop_length ck (matHasPawns pieces)
        (matUnique pieces) (matMinLikeMan pieces) (groupPieces pieces) _ _
        (factorMeasure (groupPieces pieces) _ _ (factorInit pieces))
        (factorInit pieces) stF le_rfl hloop
      rw [hpres]
      simp [factorInit]
    exact get?_set_self stF.factors (groupPieces pieces).length
      stF.idx (by omega)

/-- C4 witness: one `k = order[0]` step of the loop on the `KQQvK`-shaped
group lengths `[3, 1]` with 3 unique pieces multiplies the index by
31332. -/
theorem group_factors_pawnless_witness :
    (0 : ℕ) = 0 ∧ 3 ≤ 3 ∧
    factorLoop false false 3 0 [3, 1] 0 15 ⟨[0, 0, 0], 61, 1, 1, 0⟩ =
      factorLoop false false 3 0 [3, 1] 0 15
        ⟨[0, 0, 0].set 0 1, 61, 1, 1 * 31332, 0 + 1⟩ :=
  ⟨rfl, by decide,
    ((group_factors_pawnless false).1 3 0 [3, 1] 0 15
      ⟨[0, 0, 0], 61, 1, 1, 0⟩).1 rfl (by decide)⟩

/-! ## C1 theorem -/

/-- C1 (code bug): take the well-formed three-symbol tree
`[0x01, 0x20, 0x00, 0xAA, 0xF0, 0xFF, 0xBB, 0xF0, 0xFF]` (node 0 has
left = low-12 child 1 and right = high-12 child 2; nodes 1 and 2 are
terminal with stored bytes 0xAA and 0xBB), whose `calc_symlen` table is
`symlen = [1, 0, 0]`.  At `sym = 0`, `offset = 0` the descent of
`decompress_pairs` returns 0xBB - the byte of the HIGH-12-bit child,
because the code reads its local `left` from the top 12 bits - while the
claim's descent (left = low 12 bits) returns 0xAA. -/
theorem sym_expand_bug :
    symlenTable [1, 32, 0, 170, 240, 255, 187, 240, 255] 0 3 =
      some [(1, true), (0, true), (0, true)] ∧
    symExpand [1, 32, 0, 170, 240, 255, 187, 240, 255] 0 [1, 0, 0] 8 0 0 =
      some 187 ∧
    symExpandSpec [1, 32, 0, 170, 240, 255, 187, 240, 255] 0 [1, 0, 0] 8 0 0
      = some 170 ∧
    (187 : ℕ) ≠ 170 := by
  refine ⟨rfl, rfl, rfl, by decide⟩

/-! ## C5 theorems -/

theorem baseStep_eq (data : List ℕ) (ls i prev : ℕ) :
    baseStep data ls i prev =
      match readU16 data (ls + 2 * i), readU16 data (ls + 2 * i + 2) with
      | some lsi, some lsi1 =>
        if 2 ^ 64 ≤ prev + lsi ∨ prev + lsi < lsi1 then
          Except.error ErrorKind.corruptedTable
        else if 2 * ((prev + lsi - lsi1) / 2) < prev then
          Except.error ErrorKind.corruptedTable
        else Except.ok ((prev + lsi - lsi1) / 2)
      | _, _ => Except.error ErrorKind.corruptedTable := by
  unfold baseStep checkedAdd64 checkedSub
  cases readU16 data (ls + 2 * i) with
  | none => rfl
  | some lsi =>
    cases readU16 data (ls + 2 * i + 2) with
    | none => rfl
    | some lsi1 =>
      simp only []
      by_cases h1 : prev + lsi < 2 ^ 64
      · rw [if_pos h1]
        simp only []
        by_cases h2 : lsi1 ≤ prev + lsi
        · rw [if_pos h2]
          simp only []
          rw [if_neg (not_or.mpr ⟨Nat.not_le.mpr h1, Nat.not_lt.mpr h2⟩)]
          by_cases h3 : (prev + lsi - lsi1) / 2 * 2 < prev
          · rw [if_pos h3,
              if_pos (by rw [Nat.mul_comm] at h3; exact h3)]
          · rw [if_neg h3,
              if_neg (by rw [Nat.mul_comm ((prev + lsi - lsi1) / 2) 2] at h3
                         exact h3)]
        · rw [if_neg h2, if_pos (Or.inr (Nat.not_le.mp h2))]
      · rw [if_neg h1, if_pos (Or.inl (Nat.not_lt.mp h1))]

theorem baseRows_eq_spec (data : List ℕ) (ls h : ℕ) :
    ∀ (n i : ℕ), h - i ≤ n →
      baseRows data ls h i = baseRowsSpec data ls h i := by
  intro n
  induction n with
  | zero =>
    intro i hi
    rw [baseRows, baseRowsSpec, dif_pos (by omega : h ≤ i + 1),
      dif_pos (by omega : h ≤ i + 1)]
  | succ n ih =>
    intro i hi
    by_cases hc : h ≤ i + 1
    · rw [baseRows, baseRowsSpec, dif_pos hc, dif_pos hc]
    · rw [baseRows, baseRowsSpec, dif_neg hc, dif_neg hc,
        ih (i + 1) (by omega)]
      cases hrec : baseRowsSpec data ls h (i + 1) with
      | error e => rfl
      | ok rest =>
        simp only []
        rw [baseStep_eq]
        cases readU16 data (ls + 2 * i) with
        | none => rfl
        | some lsi =>
          cases readU16 data (ls + 2 * i + 2) with
          | none => rfl
          | some lsi1 =>
            simp only []
            split_ifs <;> rfl

theorem baseRowsSpec_length (data : List ℕ) (ls h : ℕ) :
    ∀ (n i : ℕ), h - i ≤ n → ∀ rows,
      baseRowsSpec data ls h i = Except.ok rows → rows.length = h - i := by
  intro n
  induction n with
  | zero =>
    intro i hi rows hr
    rw [baseRowsSpec, dif_pos (by omega : h ≤ i + 1),
      if_neg (by omega : ¬ i < h)] at hr
    rw [← Except.ok.inj hr]
    simp
    omega
  | succ n ih =>
    intro i hi rows hr
    by_cases hc : h ≤ i + 1
    · rw [baseRowsSpec, dif_pos hc] at hr
      by_cases hlt : i < h
      · rw [if_pos hlt] at hr
        rw [← Except.ok.inj hr]
        simp
        omega
      · rw [if_neg hlt] at hr
        rw [← Except.ok.inj hr]
        simp
        omega
    · rw [baseRowsSpec, dif_neg hc] at hr
      cases hrec : baseRowsSpec data ls h (i + 1) with
      | error e => rw [hrec] at hr; cases hr
      | ok rest =>
        rw [hrec] at hr
        have hrest := ih (i + 1) (by omega) rest hrec
        simp only [] at hr
        cases hu1 : readU16 data (ls + 2 * i) with
        | none => rw [hu1] at hr; cases hr
        | some lsi =>
          cases hu2 : readU16 data (ls + 2 * i + 2) with
          | none => rw [hu1, hu2] at hr; cases hr
          | some lsi1 =>
            rw [hu1, hu2] at hr
            simp only [] at hr
            split_ifs at hr
            rw [← Except.ok.inj hr]
            simp
            omega

theorem mapIdx_congr_fn {α β : Type} (f g : ℕ → α → β) :
    ∀ (l : List α), (∀ j a, f j a = g j a) → l.mapIdx f = l.mapIdx g := by
  intro l
  induction l generalizing f g with
  | nil => intro _; rfl
  | cons a as ih =>
    intro h
    rw [List.mapIdx_cons, List.mapIdx_cons, h 0 a,
      ih (fun i => f (i + 1)) (fun i => g (i + 1)) (fun j b => h (j + 1) b)]

theorem shiftBase_eq_mapIdx (minS : ℕ) :
    ∀ (l : List ℕ) (i : ℕ),
      (∀ j, j < l.length → 1 ≤ minS + i + j ∧ minS + i + j ≤ 64) →
      shiftBase minS i l =
        some (l.mapIdx fun j b => b * 2 ^ (64 - (minS + i + j)) % 2 ^ 64)
    := by
  intro l
  induction l with
  | nil => intro i _; rfl
  | cons b rest ih =>
    intro i hb
    have h0 := hb 0 (Nat.succ_pos _)
    have hcond : ¬ (minS + i = 0 ∨ 64 < minS + i) := by omega
    have ihh := ih (i + 1) (fun j hj => by
      have := hb (j + 1) (Nat.succ_lt_succ hj)
      omega)
    rw [shiftBase, if_neg hcond, ihh, List.mapIdx_cons]
    simp only []
    refine congrArg some ?_
    refine congrArg₂ _ (by rw [Nat.add_zero]) ?_
    exact mapIdx_congr_fn _ _ rest fun j a => by
      have he : minS + (i + 1) + j = minS + i + (j + 1) := by omega
      rw [he]

/-- C5: `PairsData::new` builds the base array by walking `i` from `h-2`
down to 0 with `base[i] = (base[i+1] + lowest_sym[i] - lowest_sym[i+1]) /
2`, returns the `CorruptedTable` error whenever `2·base[i] < base[i+1]` or
the intermediate sum under/overflows u64, and afterwards left-shifts each
`base[i]` by `64 - (min_symlen + i)` bits: the source construction equals
the claim's recurrence-plus-shift formulation (for shift amounts in range,
`1 ≤ min_symlen` and `min_symlen + h ≤ 65`). -/
theorem base_construction (data : List ℕ) (lowestSym h minSymlen : ℕ)
    (hmin : 1 ≤ minSymlen) (hbound : minSymlen + h ≤ 65) :
    buildBase data lowestSym h minSymlen =
      buildBaseSpec data lowestSym h minSymlen := by
  unfold buildBase buildBaseSpec
  by_cases hh : h < 2
  · rw [if_pos hh, if_pos hh]
  · rw [if_neg hh, if_neg hh, baseRows_eq_spec data lowestSym h (h - 0) 0
      le_rfl]
    cases hrows : baseRowsSpec data lowestSym h 0 with
    | error e => rfl
    | ok rows =>
      have hlen := baseRowsSpec_length data lowestSym h (h - 0) 0 le_rfl
        rows hrows
      simp only []
      rw [shiftBase_eq_mapIdx minSymlen rows 0 (fun j hj => by omega)]
      simp only []
      refine congrArg pureRes ?_
      exact mapIdx_congr_fn _ _ rows fun j a => by
        have he : minSymlen + 0 + j = minSymlen + j := by omega
        rw [he]

/-- C5 witness: the equivalence applied to a concrete two-row header
(`h = 2`, `min_symlen = 1`). -/
theorem base_construction_witness :
    1 ≤ 1 ∧ 1 + 2 ≤ 65 ∧
    buildBase [2, 0, 1, 0] 0 2 1 = buildBaseSpec [2, 0, 1, 0] 0 2 1 :=
  ⟨le_rfl, by decide, base_construction [2, 0, 1, 0] 0 2 1 le_rfl
    (by decide)⟩

/-! ## C6 theorems -/

theorem lt_of_get?_eq_some {α : Type} {l : List α} {n : ℕ} {a : α}
    (h : l.get? n = some a) : n < l.length := by
  by_contra hn
  rw [List.get?_eq_none.mpr (le_of_not_lt hn)] at h
  cases h

theorem getD_of_get? {α : Type} {l : List α} {n : ℕ} {a : α} (d : α)
    (h : l.get? n = some a) : l.getD n d = a := by
  unfold List.getD
  rw [h]
  rfl

theorem get?_set_ne {α : Type} :
    ∀ (l : List α) (i j : ℕ) (a : α), i ≠ j →
      (l.set i a).get? j = l.get? j := by
  intro l
  induction l with
  | nil => intro i j a _; rfl
  | cons x xs ih =>
    intro i j a hij
    cases i with
    | zero =>
      cases j with
      | zero => exact absurd rfl hij
      | succ m => rfl
    | succ n =>
      cases j with
      | zero => rfl
      | succ m => exact ih n m a fun hh => hij (by rw [hh])

theorem set_oob {α : Type} :
    ∀ (l : List α) (i : ℕ) (a : α), l.length ≤ i → l.set i a = l := by
  intro l
  induction l with
  | nil => intro i a _; rfl
  | cons x xs ih =>
    intro i a hi
    cases i with
    | zero => simp at hi
    | succ n => simp only [List.set]; rw [ih n a (by simpa using hi)]

theorem symVal_eq {st : SymState} {s : ℕ} {p : ℕ × Bool}
    (h : st.get? s = some p) : symVal st s = p.1 := by
  unfold symVal
  rw [getD_of_get? _ h]

theorem symVisited_eq {st : SymState} {s : ℕ} {p : ℕ × Bool}
    (h : st.get? s = some p) : symVisited st s = p.2 := by
  unfold symVisited
  rw [getD_of_get? _ h]

theorem symVal_set_ne (st : SymState) (s : ℕ) (p : ℕ × Bool) (t : ℕ)
    (h : t ≠ s) : symVal (st.set s p) t = symVal st t := by
  unfold symVal List.getD
  rw [get?_set_ne st s t p fun hh => h hh.symm]

theorem symVisited_set_ne (st : SymState) (s : ℕ) (p : ℕ × Bool) (t : ℕ)
    (h : t ≠ s) : symVisited (st.set s p) t = symVisited st t := by
  unfold symVisited List.getD
  rw [get?_set_ne st s t p fun hh => h hh.symm]

theorem symVal_set_self (st : SymState) (s : ℕ) (p : ℕ × Bool)
    (h : s < st.length) : symVal (st.set s p) s = p.1 :=
  symVal_eq (get?_set_self st s p h)

theorem symVisited_set_self (st : SymState) (s : ℕ) (p : ℕ × Bool)
    (h : s < st.length) : symVisited (st.set s p) s = p.2 :=
  symVisited_eq (get?_set_self st s p h)

theorem visited_set_mono (st : SymState) (s v t : ℕ)
    (ht : symVisited st t = true) :
    symVisited (st.set s (v, true)) t = true := by
  by_cases hts : t = s
  · subst hts
    by_cases hl : t < st.length
    · rw [symVisited_set_self st t (v, true) hl]
    · rw [set_oob st t (v, true) (le_of_not_lt hl)]
      exact ht
  · rw [symVisited_set_ne st s (v, true) t hts]
    exact ht

theorem val_set_preserve (st : SymState) (s v : ℕ)
    (hval : symVisited st s = true → symVal st s = v) (t : ℕ)
    (ht : symVisited st t = true) :
    symVal (st.set s (v, true)) t = symVal st t := by
  by_cases hts : t = s
  · subst hts
    by_cases hl : t < st.length
    · rw [symVal_set_self st t (v, true) hl]
      exact (hval ht).symm
    · rw [set_oob st t (v, true) (le_of_not_lt hl)]
  · rw [symVal_set_ne st s (v, true) t hts]

theorem symOk_transfer (data : List ℕ) (btree : ℕ) (st2 st' : SymState)
    (hpres : ∀ t, symVisited st2 t = true →
      symVisited st' t = true ∧ symVal st' t = symVal st2 t)
    (t : ℕ) (ht : symVisited st2 t = true)
    (hok : symOk data btree st2 t) : symOk data btree st' t := by
  unfold symOk at hok ⊢
  by_cases hr : nodeRight data btree t = 4095
  · rw [if_pos hr] at hok ⊢
    rw [(hpres t ht).2, hok]
  · rw [if_neg hr] at hok ⊢
    obtain ⟨hvl, hvr, hval⟩ := hok
    exact ⟨(hpres _ hvl).1, (hpres _ hvr).1, by
      rw [(hpres t ht).2, (hpres _ hvl).2, (hpres _ hvr).2, hval]⟩

theorem calcSymlen_spec (data : List ℕ) (btree : ℕ) :
    ∀ (fuel s : ℕ) (st st' : SymState),
      calcSymlen data btree fuel s st = some st' →
      (∀ t, symVisited st t = true → symOk data btree st t) →
      (∀ t, symVisited st' t = true → symOk data btree st' t) ∧
      st'.length = st.length ∧ symVisited st' s = true ∧
      (∀ t, symVisited st t = true →
        symVisited st' t = true ∧ symVal st' t = symVal st t) := by
  intro fuel
  induction fuel with
  | zero => intro s st st' h _; cases h
  | succ fuel ih =>
    intro s st st' h hInv
    rw [calcSymlen] at h
    rcases e2 : data.get? (btree + 3 * s + 2) with _ | b2 <;> rw [e2] at h
    · cases h
    simp only [] at h
    rcases e1 : data.get? (btree + 3 * s + 1) with _ | b1 <;> rw [e1] at h
    · cases h
    simp only [] at h
    by_cases hterm : b2 * 16 + b1 / 16 = 4095
    · rw [if_pos hterm] at h
      rcases es : st.get? s with _ | p <;> rw [es] at h
      · cases h
      simp only [] at h
      obtain rfl := Option.some.inj h
      have hs_lt : s < st.length := lt_of_get?_eq_some es
      have hnr : nodeRight data btree s = 4095 := by
        unfold nodeRight
        rw [getD_of_get? 0 e2, getD_of_get? 0 e1]
        exact hterm
      have hvhyp : symVisited st s = true → symVal st s = 0 := by
        intro hv
        have hok := hInv s hv
        unfold symOk at hok
        rw [if_pos hnr] at hok
        exact hok
      have hpres : ∀ t, symVisited st t = true →
          symVisited (st.set s (0, true)) t = true ∧
          symVal (st.set s (0, true)) t = symVal st t :=
        fun t ht => ⟨visited_set_mono st s 0 t ht,
          val_set_preserve st s 0 hvhyp t ht⟩
      refine ⟨?_, List.length_set st s _, ?_, hpres⟩
      · intro t ht
        by_cases hts : t = s
        · subst hts
          unfold symOk
          rw [if_pos hnr, symVal_set_self st t (0, true) hs_lt]
        · rw [symVisited_set_ne st s (0, true) t hts] at ht
          exact symOk_transfer data btree st _ hpres t ht (hInv t ht)
      · rw [symVisited_set_self st s (0, true) hs_lt]
    · rw [if_neg hterm] at h
      rcases e0 : data.get? (btree + 3 * s) with _ | b0 <;> rw [e0] at h
      · cases h
      simp only [] at h
      rcases epl : st.get? (b1 % 16 * 256 + b0) with _ | pl <;> rw [epl] at h
      · cases h
      simp only [] at h
      rcases h1 : (if pl.2 then some st
          else calcSymlen data btree fuel (b1 % 16 * 256 + b0) st)
        with _ | st1 <;> rw [h1] at h
      · cases h
      simp only [] at h
      have P1 : (∀ t, symVisited st1 t = true → symOk data btree st1 t) ∧
          st1.length = st.length ∧
          symVisited st1 (b1 % 16 * 256 + b0) = true ∧
          (∀ t, symVisited st t = true →
            symVisited st1 t = true ∧ symVal st1 t = symVal st t) := by
        by_cases hpl2 : pl.2 = true
        · rw [if_pos hpl2] at h1
          obtain rfl := Option.some.inj h1
          exact ⟨hInv, rfl, by rw [symVisited_eq epl]; exact hpl2,
            fun t ht => ⟨ht, rfl⟩⟩
        · rw [if_neg hpl2] at h1
          exact ih _ st st1 h1 hInv
      rcases epr : st1.get? (b2 * 16 + b1 / 16) with _ | pr <;> rw [epr] at h
      · cases h
      simp only [] at h
      rcases h2 : (if pr.2 then some st1
          else calcSymlen data btree fuel (b2 * 16 + b1 / 16) st1)
        with _ | st2 <;> rw [h2] at h
      · cases h
      simp only [] at h
      have P2 : (∀ t, symVisited st2 t = true → symOk data btree st2 t) ∧
          st2.length = st1.length ∧
          symVisited st2 (b2 * 16 + b1 / 16) = true ∧
          (∀ t, symVisited st1 t = true →
            symVisited st2 t = true ∧ symVal st2 t = symVal st1 t) := by
        by_cases hpr2 : pr.2 = true
        · rw [if_pos hpr2] at h2
          obtain rfl := Option.some.inj h2
          exact ⟨P1.1, rfl, by rw [symVisited_eq epr]; exact hpr2,
            fun t ht => ⟨ht, rfl⟩⟩
        · rw [if_neg hpr2] at h2
          exact ih _ st1 st2 h2 P1.1
      rcases eql : st2.get? (b1 % 16 * 256 + b0) with _ | ql <;> rw [eql] at h
      · cases h
      simp only [] at h
      rcases eqr : st2.get? (b2 * 16 + b1 / 16) with _ | qr <;> rw [eqr] at h
      · cases h
      simp only [] at h
      rcases eqs : st2.get? s with _ | qs <;> rw [eqs] at h
      · cases h
      simp only [] at h
      by_cases hov : 255 < ql.1 + qr.1 + 1
      · rw [if_pos hov] at h; cases h
      rw [if_neg hov] at h
      obtain rfl := Option.some.inj h
      have hs_lt : s < st2.length := lt_of_get?_eq_some eqs
      have hnl : nodeLeft data btree s = b1 % 16 * 256 + b0 := by
        unfold nodeLeft
        rw [getD_of_get? 0 e1, getD_of_get? 0 e0]
      have hnr2 : nodeRight data btree s = b2 * 16 + b1 / 16 := by
        unfold nodeRight
        rw [getD_of_get? 0 e2, getD_of_get? 0 e1]
      have hnr_ne : nodeRight data btree s ≠ 4095 := by
        rw [hnr2]; exact hterm
      have hvsl2 : symVisited st2 (b1 % 16 * 256 + b0) = true :=
        (P2.2.2.2 _ P1.2.2.1).1
      have hvsr2 : symVisited st2 (b2 * 16 + b1 / 16) = true := P2.2.2.1
      have hvql : symVal st2 (b1 % 16 * 256 + b0) = ql.1 := symVal_eq eql
      have hvqr : symVal st2 (b2 * 16 + b1 / 16) = qr.1 := symVal_eq eqr
      have hslne : s ≠ b1 % 16 * 256 + b0 := by
        intro heq
        have hvis : symVisited st2 s = true := by rw [heq]; exact hvsl2
        have hok := P2.1 s hvis
        unfold symOk at hok
        rw [if_neg hnr_ne, hnl, hnr2, ← heq] at hok
        omega
      have hsrne : s ≠ b2 * 16 + b1 / 16 := by
        intro heq
        have hvis : symVisited st2 s = true := by rw [heq]; exact hvsr2
        have hok := P2.1 s hvis
        unfold symOk at hok
        rw [if_neg hnr_ne, hnl, hnr2, ← heq] at hok
        omega
      have hvhyp : symVisited st2 s = true →
          symVal st2 s = ql.1 + qr.1 + 1 := by
        intro hv
        have hok := P2.1 s hv
        unfold symOk at hok
        rw [if_neg hnr_ne, hnl, hnr2, hvql, hvqr] at hok
        exact hok.2.2
      have hpres : ∀ t, symVisited st2 t = true →
          symVisited (st2.set s (ql.1 + qr.1 + 1, true)) t = true ∧
          symVal (st2.set s (ql.1 + qr.1 + 1, true)) t = symVal st2 t :=
        fun t ht => ⟨visited_set_mono st2 s _ t ht,
          val_set_preserve st2 s _ hvhyp t ht⟩
      refine ⟨?_, ?_, ?_, ?_⟩
      · intro t ht
        by_cases hts : t = s
        · subst hts
          unfold symOk
          rw [if_neg hnr_ne, hnl, hnr2]
          refine ⟨(hpres _ hvsl2).1, (hpres _ hvsr2).1, ?_⟩
          rw [symVal_set_self st2 t _ hs_lt,
            symVal_set_ne st2 t _ _ (fun hh => hslne hh.symm),
            symVal_set_ne st2 t _ _ (fun hh => hsrne hh.symm),
            hvql, hvqr]
        · rw [symVisited_set_ne st2 s _ t hts] at ht
          exact symOk_transfer data btree st2 _ hpres t ht (P2.1 t ht)
      · rw [List.length_set, P2.2.1, P1.2.1]
      · rw [symVisited_set_self st2 s _ hs_lt]
      · intro t ht
        have q1 := P1.2.2.2 t ht
        have q2 := P2.2.2.2 t q1.1
        have q3 := hpres t q2.1
        exact ⟨q3.1, by rw [q3.2, q2.2, q1.2]⟩

theorem symlenLoop_spec (data : List ℕ) (btree count : ℕ) :
    ∀ (l : List ℕ) (st st' : SymState),
      List.foldlM (symlenVisit data btree count) st l = some st' →
      (∀ t, symVisited st t = true → symOk data btree st t) →
      (∀ t, symVisited st' t = true → symOk data btree st' t) ∧
      (∀ t, symVisited st t = true → symVisited st' t = true) ∧
      (∀ s ∈ l, symVisited st' s = true) := by
  intro l
  induction l with
  | nil =>
    intro st st' h hInv
    obtain rfl := Option.some.inj h
    exact ⟨hInv, fun t ht => ht, by simp⟩
  | cons a as ih =>
    intro st st' h hInv
    rw [List.foldlM_cons] at h
    rcases hv : symlenVisit data btree count st a with _ | st2 <;>
      rw [hv] at h
    · cases h
    have h2 : List.foldlM (symlenVisit data btree count) st2 as = some st'
      := h
    unfold symlenVisit at hv
    by_cases hva : symVisited st a = true
    · rw [if_pos hva] at hv
      obtain rfl := Option.some.inj hv
      have I := ih st st' h2 hInv
      refine ⟨I.1, I.2.1, ?_⟩
      intro s hs
      rcases List.mem_cons.mp hs with rfl | hmem
      · exact I.2.1 s hva
      · exact I.2.2 s hmem
    · rw [if_neg hva] at hv
      have C := calcSymlen_spec data btree (count + 1) a st st2 hv hInv
      have I := ih st2 st' h2 C.1
      refine ⟨I.1, fun t ht => I.2.1 t (C.2.2.2 t ht).1, ?_⟩
      intro s hs
      rcases List.mem_cons.mp hs with rfl | hmem
      · exact I.2.1 s C.2.2.1
      · exact I.2.2 s hmem

theorem getD_replicate_self {α : Type} :
    ∀ (n i : ℕ) (a : α), (List.replicate n a).getD i a = a := by
  intro n
  induction n with
  | zero => intro i a; rfl
  | succ m ih =>
    intro i a
    cases i with
    | zero => rfl
    | succ j => exact ih j a

/-- C6: after `calc_symlen` construction over every unvisited symbol, for
every symbol `s` in `[0, count)`: `symlen[s] = 0` iff the right-child field
(top 12 bits) of the `s`-th 3-byte node equals 0xFFF, and otherwise
`symlen[s] = symlen[left] + symlen[right] + 1` with `left` the low and
`right` the top 12 bits of that node. -/
theorem symlen_characterization (data : List ℕ) (btree count : ℕ)
    (st : SymState) (h : symlenTable data btree count = some st) :
    ∀ s, s < count →
      (symVal st s = 0 ↔ nodeRight data btree s = 4095) ∧
      (nodeRight data btree s ≠ 4095 →
        symVal st s = symVal st (nodeLeft data btree s) +
          symVal st (nodeRight data btree s) + 1) := by
  unfold symlenTable at h
  have hInv0 : ∀ t, symVisited (List.replicate count ((0 : ℕ), false)) t =
      true → symOk data btree (List.replicate count ((0 : ℕ), false)) t := by
    intro t ht
    unfold symVisited at ht
    rw [getD_replicate_self count t ((0 : ℕ), false)] at ht
    cases ht
  have L := symlenLoop_spec data btree count (List.range count) _ st h hInv0
  intro s hs
  have hvis : symVisited st s = true := L.2.2 s (List.mem_range.mpr hs)
  have hok := L.1 s hvis
  unfold symOk at hok
  by_cases hr : nodeRight data btree s = 4095
  · rw [if_pos hr] at hok
    exact ⟨⟨fun _ => hr, fun _ => hok⟩, fun hne => absurd hr hne⟩
  · rw [if_neg hr] at hok
    refine ⟨⟨fun h0 => ?_, fun h4 => absurd h4 hr⟩, fun _ => hok.2.2⟩
    rw [hok.2.2] at h0
    omega

/-- C6 witness: the characterization at symbol 0 of the concrete
three-symbol tree, whose construction yields `symlen = [1, 0, 0]`. -/
theorem symlen_characterization_witness :
    (symVal [(1, true), (0, true), (0, true)] 0 = 0 ↔
      nodeRight [1, 32, 0, 170, 240, 255, 187, 240, 255] 0 0 = 4095) ∧
    (nodeRight [1, 32, 0, 170, 240, 255, 187, 240, 255] 0 0 ≠ 4095 →
      symVal [(1, true), (0, true), (0, true)] 0 =
        symVal [(1, true), (0, true), (0, true)]
          (nodeLeft [1, 32, 0, 170, 240, 255, 187, 240, 255] 0 0) +
        symVal [(1, true), (0, true), (0, true)]
          (nodeRight [1, 32, 0, 170, 240, 255, 187, 240, 255] 0 0) + 1) :=
  symlen_characterization [1, 32, 0, 170, 240, 255, 187, 240, 255] 0 3
    [(1, true), (0, true), (0, true)] rfl 0 (by decide)

/-! ## C8 theorems -/

/-- C8 counterexample: on a byte range whose first 4 bytes are zero (not
the chess WDL magic), `Table::new` panics via
`assert!(data.starts_with(&P::WDL_MAGIC))`: it does not return the
`CorruptedTable`/bad-magic error the claim requires. -/
theorem table_new_bad_magic_counterexample :
    tableNew chessWdlMagic chessConnectedKings [0, 0, 0, 0, 0, 0] =
      rustPanic ∧
    tableNew chessWdlMagic chessConnectedKings [0, 0, 0, 0, 0, 0] ≠
      ExceptT.mk (some (Except.error ErrorKind.corruptedTable)) := by
  constructor
  · rfl
  · intro h
    have h2 : (none : Option (Except ErrorKind TableT)) =
        some (Except.error ErrorKind.corruptedTable) := h
    cases h2

/-- C8 amended: for every input byte range whose first 4 bytes differ from
the variant's `WDL_MAGIC`, `Table::new` panics on the magic `assert!`
rather than constructing a table or returning an error. -/
theorem table_new_bad_magic (magic : List ℕ) (ck : Bool) (data : List ℕ)
    (h : data.take 4 ≠ magic) :
    tableNew magic ck data = rustPanic := by
  unfold tableNew
  rw [if_pos h]

/-- C8 amended, witness: the bad-magic panic on a tiny concrete input. -/
theorem table_new_bad_magic_witness :
    [1, 2, 3].take 4 ≠ chessWdlMagic ∧
    tableNew chessWdlMagic chessConnectedKings [1, 2, 3] = rustPanic :=
  ⟨by decide, table_new_bad_magic chessWdlMagic chessConnectedKings [1, 2, 3]
    (by decide)⟩

end Syzygy
